import Mathlib

/-!
# Verification of the pdf-library chunking + hybrid retrieval engine

Shallow embedding of the core algorithms of the `pdf-library` repository
(chunking, embedding validation, bounded-concurrency batch embedding,
dual-index storage, hybrid query merging, and budget-constrained context
expansion), together with theorems settling the frozen claims about them.

Modelling conventions:
* JavaScript strings are modelled as `List Char`; `String.length` of JS
  corresponds to `List.length` here.
* JavaScript floating-point numbers used in score arithmetic are modelled as
  exact rationals `ℚ`; comparisons such as `x > maxChars * 1.2` are modelled
  exactly (`5 * x > 6 * maxChars` over `Nat`).
* `NaN` / `±Infinity` are modelled by a dedicated sum type `JSNum`.
* Effectful code is modelled by explicit `Except` values and explicit state
  passing; the external inference service and the SQL engine are oracles
  passed as parameters (their documented semantics is embedded directly).
-/

set_option maxRecDepth 100000

namespace PdfLib

/-- The newline character used as separator throughout the engine. -/
def nlc : Char := Char.ofNat 10

/-- The backtick character (code-fence delimiter in `chunkText`). -/
def btick : Char := Char.ofNat 96

/-! ## JavaScript numbers (`Ollama.ts`)

`Number.isFinite` distinguishes finite values from `NaN` and `±Infinity`;
finite values are modelled as rationals. -/

/-- Model of a JavaScript `number` as seen by `validateEmbedding`. -/
inductive JSNum where
  | fin (q : ℚ)
  | nan
  | posInf
  | negInf
deriving DecidableEq, Repr

/-- `Number.isFinite`. -/
def JSNum.isFinite : JSNum → Bool
  | .fin _ => true
  | _ => false

/-- Model of `OllamaError` from `types.ts`. -/
structure OllamaError where
  reason : String
deriving DecidableEq, Repr

/-- `EXPECTED_EMBEDDING_DIMENSION` from `Ollama.ts`. -/
def EXPECTED_EMBEDDING_DIMENSION : Nat := 1024

/-- `validateEmbedding` from `Ollama.ts` (lines 58-87): rejects vectors of
length 0, of length different from the expected dimension, and vectors
containing a non-finite component; otherwise returns the vector. -/
def validateEmbedding (embedding : List JSNum) : Except OllamaError (List JSNum) :=
  if embedding.length = 0 then
    .error ⟨s!"Invalid embedding: dimension 0 (expected {EXPECTED_EMBEDDING_DIMENSION})"⟩
  else if embedding.length ≠ EXPECTED_EMBEDDING_DIMENSION then
    .error ⟨s!"Invalid embedding: dimension {embedding.length} (expected {EXPECTED_EMBEDDING_DIMENSION})"⟩
  else if embedding.any (fun v => !v.isFinite) then
    .error ⟨"Invalid embedding: contains non-finite values (NaN or Infinity)"⟩
  else
    .ok embedding

/-- Outcome of the HTTP interaction of one `embedSingle` attempt, before
validation: the fetch can fail to connect, return a non-OK status, return
bad JSON, or deliver a vector from the inference service. -/
inductive FetchOutcome where
  | connFailed (e : String)
  | httpError (body : String)
  | badJson
  | vector (v : List JSNum)
deriving DecidableEq, Repr

/-- One attempt of `embedSingle` from `Ollama.ts` (lines 94-132), as a
function of the fetch outcome: every error path fails with an
`OllamaError`, and a delivered vector is passed through
`validateEmbedding` before being returned. -/
def embedAttempt : FetchOutcome → Except OllamaError (List JSNum)
  | .connFailed e => .error ⟨s!"Connection failed: {e}"⟩
  | .httpError body => .error ⟨body⟩
  | .badJson => .error ⟨"Invalid JSON response"⟩
  | .vector v => validateEmbedding v

/-! ## Bounded-concurrency batch embedding (`Ollama.ts` `embedBatch`)

`embedBatch` runs `embedSingle` over the texts with
`Stream.mapEffect(embedSingle, { concurrency })`, which bounds in-flight
calls but emits results indexed by their input position.  The concurrent
execution is modelled by an explicit completion order: workers write into
a pre-sized slot array by input index, in whatever order the scheduler
completes them. -/

/-- Denotation of `embedBatch` on the success path (`Ollama.ts`
lines 137-142): the i-th result is the embedding of the i-th text. -/
def embedBatch (embed : String → List JSNum) (texts : List String) :
    List (Option (List JSNum)) :=
  texts.map (fun t => some (embed t))

/-- One completion event of the worker pool: the call for input index `i`
finishes and writes its result into slot `i` (indices outside the input
list never occur and leave the slots unchanged). -/
def poolStep (embed : String → List JSNum) (texts : List String)
    (slots : List (Option (List JSNum))) (i : Nat) :
    List (Option (List JSNum)) :=
  match texts[i]? with
  | some t => slots.set i (some (embed t))
  | none => slots

/-- Concurrency model of `embedBatch`: `order` is the order in which the
bounded pool of in-flight calls completes; each completion writes its
result into the slot of its input index. -/
def runPool (embed : String → List JSNum) (texts : List String)
    (order : List Nat) : List (Option (List JSNum)) :=
  order.foldl (poolStep embed texts) (List.replicate texts.length none)

lemma poolStep_length (embed : String → List JSNum) (texts : List String)
    (slots : List (Option (List JSNum))) (i : Nat) :
    (poolStep embed texts slots i).length = slots.length := by
  unfold poolStep
  cases texts[i]? <;> simp

lemma poolStep_getElem?_ne (embed : String → List JSNum) (texts : List String)
    (slots : List (Option (List JSNum))) (i j : Nat) (h : i ≠ j) :
    (poolStep embed texts slots i)[j]? = slots[j]? := by
  unfold poolStep
  cases texts[i]? with
  | none => rfl
  | some t => exact List.getElem?_set_ne h

lemma runPool_go_notMem (embed : String → List JSNum) (texts : List String)
    (order : List Nat) (slots : List (Option (List JSNum))) (j : Nat)
    (hj : j ∉ order) :
    (order.foldl (poolStep embed texts) slots)[j]? = slots[j]? := by
  induction order generalizing slots with
  | nil => rfl
  | cons k rest ih =>
    simp only [List.mem_cons, not_or] at hj
    rw [List.foldl_cons, ih _ hj.2, poolStep_getElem?_ne _ _ _ _ _ (Ne.symm hj.1)]

lemma runPool_go_mem (embed : String → List JSNum) (texts : List String)
    (order : List Nat) (slots : List (Option (List JSNum))) (j : Nat)
    (hlen : slots.length = texts.length)
    (hj : j ∈ order) (hjt : j < texts.length) :
    (order.foldl (poolStep embed texts) slots)[j]? = some (some (embed texts[j])) := by
  induction order generalizing slots with
  | nil => cases hj
  | cons k rest ih =>
    rw [List.foldl_cons]
    by_cases hk : j ∈ rest
    · exact ih _ (by rw [poolStep_length, hlen]) hk
    · have hjk : j = k := by
        rcases List.mem_cons.mp hj with h | h
        · exact h
        · exact absurd h hk
      subst hjk
      rw [runPool_go_notMem _ _ _ _ _ hk]
      unfold poolStep
      rw [List.getElem?_eq_getElem hjt]
      rw [List.getElem?_set_self (by rw [hlen]; exact hjt)]

lemma runPool_length (embed : String → List JSNum) (texts : List String)
    (order : List Nat) : (runPool embed texts order).length = texts.length := by
  unfold runPool
  have : ∀ (o : List Nat) (slots : List (Option (List JSNum))),
      (o.foldl (poolStep embed texts) slots).length = slots.length := by
    intro o
    induction o with
    | nil => intro slots; rfl
    | cons k rest ih =>
      intro slots
      rw [List.foldl_cons, ih, poolStep_length]
  rw [this, List.length_replicate]

/-- **C6.** For every list of texts and every completion order of the
bounded-concurrency pool, `embedBatch` returns an array of the same length
as `texts` in which slot `i` holds the embedding of `texts[i]`: the pool
run coincides with the order-preserving denotation `embedBatch`. -/
theorem claim6_embedBatch_preserves_order (embed : String → List JSNum)
    (texts : List String) (order : List Nat)
    (h : order.Perm (List.range texts.length)) :
    runPool embed texts order = embedBatch embed texts ∧
      (runPool embed texts order).length = texts.length ∧
      ∀ (i : Nat) (hi : i < texts.length),
        (runPool embed texts order)[i]? = some (some (embed texts[i])) := by
  have hmem : ∀ i : Nat, i < texts.length → i ∈ order := by
    intro i hi
    rw [h.mem_iff, List.mem_range]
    exact hi
  have hget : ∀ (i : Nat) (hi : i < texts.length),
      (runPool embed texts order)[i]? = some (some (embed texts[i])) := by
    intro i hi
    exact runPool_go_mem embed texts order _ i (List.length_replicate ..) (hmem i hi) hi
  refine ⟨?_, runPool_length embed texts order, hget⟩
  apply List.ext_getElem?
  intro i
  by_cases hi : i < texts.length
  · rw [hget i hi]
    unfold embedBatch
    rw [List.getElem?_map, List.getElem?_eq_getElem hi]
    rfl
  · have h1 : (runPool embed texts order).length ≤ i := by
      rw [runPool_length]; omega
    have h2 : (embedBatch embed texts).length ≤ i := by
      unfold embedBatch; rw [List.length_map]; omega
    rw [List.getElem?_eq_none h1, List.getElem?_eq_none h2]

/-- Witness for C6 at a concrete input: three texts completed in the
jittered order `[2, 0, 1]` still fill the slots in input order. -/
theorem claim6_embedBatch_preserves_order_witness :
    runPool (fun s => [JSNum.fin (s.length : ℚ)]) ["a", "bb", "ccc"] [2, 0, 1] =
      embedBatch (fun s => [JSNum.fin (s.length : ℚ)]) ["a", "bb", "ccc"] := by
  exact (claim6_embedBatch_preserves_order (fun s => [JSNum.fin (s.length : ℚ)])
    ["a", "bb", "ccc"] [2, 0, 1] (by decide)).1

/-- **C7.** `embedAttempt` (the body of `embed`) fails with an embedding
error whenever the inference service delivers a vector of length 0, of
length different from the expected dimension 1024, or containing a
non-finite component; a vector is returned only if it passes all three
checks (and it is returned unmodified). -/
theorem claim7_embedding_validation (v : List JSNum) :
    ((v.length = 0 ∨ v.length ≠ EXPECTED_EMBEDDING_DIMENSION ∨
        ∃ x ∈ v, x.isFinite = false) →
      ∃ e, embedAttempt (.vector v) = .error e) ∧
    (∀ w, embedAttempt (.vector v) = .ok w →
      w = v ∧ v.length = EXPECTED_EMBEDDING_DIMENSION ∧
        ∀ x ∈ v, x.isFinite = true) := by
  have hred : embedAttempt (.vector v) = validateEmbedding v := rfl
  constructor
  · intro h
    rw [hred]
    unfold validateEmbedding
    by_cases h0 : v.length = 0
    · exact ⟨_, by rw [if_pos h0]⟩
    · rw [if_neg h0]
      by_cases h1 : v.length ≠ EXPECTED_EMBEDDING_DIMENSION
      · exact ⟨_, by rw [if_pos h1]⟩
      · rw [if_neg h1]
        have h2 : v.any (fun x => !x.isFinite) = true := by
          rcases h with h | h | h
          · exact absurd h h0
          · exact absurd h h1
          · rcases h with ⟨x, hx, hfin⟩
            rw [List.any_eq_true]
            exact ⟨x, hx, by rw [hfin]; rfl⟩
        exact ⟨_, by rw [if_pos h2]⟩
  · intro w hw
    rw [hred] at hw
    unfold validateEmbedding at hw
    by_cases h0 : v.length = 0
    · rw [if_pos h0] at hw; cases hw
    · rw [if_neg h0] at hw
      by_cases h1 : v.length ≠ EXPECTED_EMBEDDING_DIMENSION
      · rw [if_pos h1] at hw; cases hw
      · rw [if_neg h1] at hw
        by_cases h2 : v.any (fun x => !x.isFinite) = true
        · rw [if_pos h2] at hw; cases hw
        · rw [if_neg h2] at hw
          cases hw
          refine ⟨rfl, not_ne_iff.mp h1, ?_⟩
          intro x hx
          rw [List.any_eq_true] at h2
          push_neg at h2
          have := h2 x hx
          cases hfin : x.isFinite
          · exact absurd (by rw [hfin]; rfl) this
          · rfl

/-- Witness for C7: a valid 1024-dimensional all-finite vector passes
validation and is returned unchanged, and the theorem recovers its
dimension and finiteness from that. -/
theorem claim7_embedding_validation_witness :
    (List.replicate 1024 (JSNum.fin 0)).length = EXPECTED_EMBEDDING_DIMENSION ∧
      ∀ x ∈ List.replicate 1024 (JSNum.fin 0), x.isFinite = true := by
  have h := (claim7_embedding_validation (List.replicate 1024 (JSNum.fin 0))).2
    (List.replicate 1024 (JSNum.fin 0)) (by rfl)
  exact ⟨h.2.1, h.2.2⟩

/-! ## Search results and options (`types.ts`) -/

/-- `SearchResult.matchType` literal type from `types.ts`. -/
inductive MatchType where
  | vector
  | fts
  | hybrid
deriving DecidableEq, Repr

/-- Model of `SearchResult` from `types.ts`.  Scores are exact rationals. -/
structure SR where
  docId : String
  title : String
  page : Nat
  chunkIndex : Nat
  content : String
  score : ℚ
  matchType : MatchType
  expandedContent : Option String := none
  expandedRange : Option (Nat × Nat) := none
deriving DecidableEq, Repr

/-- Model of `SearchOptions` from `types.ts`, with the schema defaults
(`limit = 10`, `threshold = 0`, `hybrid = true`, `expandChars = 0`). -/
structure SearchOpts where
  limit : Nat := 10
  threshold : ℚ := 0
  tags : Option (List String) := none
  hybrid : Bool := true
  expandChars : Nat := 0
deriving DecidableEq, Repr

/-! ## Vector search (`PGliteDatabase.vectorSearch` and
`LibSQLDatabase.vectorSearch`)

A stored row joined for vector search.  The SQL engine's
`e.embedding <=> query` / `vector_distance_cos(e.embedding, query)` is the
cosine distance between the query vector and the row's stored embedding;
it is carried here as the field `dist` (the engine computing it is the
storage engine, an external collaborator). -/

/-- One candidate row of the `embeddings ⋈ chunks ⋈ documents` join, with
`dist` the cosine distance between the query embedding and the row's
stored embedding. -/
structure VRow where
  docId : String
  title : String
  page : Nat
  chunkIndex : Nat
  content : String
  dist : ℚ
  docTags : List String
deriving DecidableEq, Repr

/-- PGlite tag filter: `d.tags @> $tags::jsonb` (applied only when the tag
list is nonempty) — the document's tags contain every requested tag. -/
def pgTagOk (tags : Option (List String)) (docTags : List String) : Bool :=
  match tags with
  | none => true
  | some ts => if ts.isEmpty then true else ts.all (fun t => docTags.contains t)

/-- LibSQL tag filter: an `OR` of `EXISTS` clauses — the document carries
at least one of the requested tags (applied only when nonempty). -/
def libTagOk (tags : Option (List String)) (docTags : List String) : Bool :=
  match tags with
  | none => true
  | some ts => if ts.isEmpty then true else ts.any (fun t => docTags.contains t)

/-- Shared row-to-result conversion, parameterised by the score formula. -/
def rowToSR (score : ℚ → ℚ) (r : VRow) : SR :=
  { docId := r.docId, title := r.title, page := r.page,
    chunkIndex := r.chunkIndex, content := r.content,
    score := score r.dist, matchType := .vector }

/-- `vectorSearch` of the PGlite implementation (PGlite `Database.ts`
lines 339-397): filter by tags and by `1 - dist ≥ threshold`, order by
distance ascending, cap at `limit`, and report `score = 1 - dist`. -/
def vectorSearchPG (rows : List VRow) (opts : SearchOpts) : List SR :=
  let filtered := rows.filter
    (fun r => pgTagOk opts.tags r.docTags && decide (opts.threshold ≤ 1 - r.dist))
  let sorted := filtered.insertionSort (fun a b => a.dist ≤ b.dist)
  (sorted.take opts.limit).map (rowToSR (fun d => 1 - d))

/-- `vectorSearch` of the LibSQL implementation (`LibSQLDatabase.ts`
lines 675-752): `vector_top_k` pre-selects the `fetchLimit` nearest rows,
the tag filter and (only when `threshold > 0`) the distance bound
`dist ≤ 2⋅(1 - threshold)` are applied, rows are ordered by distance
ascending and capped at `limit`, and the reported score is
`1 - dist / 2`. -/
def vectorSearchLib (rows : List VRow) (opts : SearchOpts) : List SR :=
  let fetchLimit :=
    match opts.tags with
    | some ts => if ts.isEmpty then opts.limit else opts.limit * 3
    | none => opts.limit
  let top := (rows.insertionSort (fun a b => a.dist ≤ b.dist)).take fetchLimit
  let filtered := top.filter
    (fun r => libTagOk opts.tags r.docTags &&
      (decide (opts.threshold ≤ 0) || decide (r.dist ≤ 2 * (1 - opts.threshold))))
  let sorted := filtered.insertionSort (fun a b => a.dist ≤ b.dist)
  (sorted.take opts.limit).map (rowToSR (fun d => 1 - d / 2))

/-- **C1 (counterexample).** The claim states that every entry returned by
`vectorSearch` has `score = 1 - cosine_distance`.  The LibSQL
implementation reports `score = 1 - dist / 2` instead: a single stored row
at cosine distance 1 from the query is returned with score `1/2`, whereas
the claim demands score `1 - 1 = 0`. -/
theorem claim1_counterexample :
    ¬ (∀ s ∈ vectorSearchLib
          [{ docId := "d", title := "t", page := 1, chunkIndex := 0,
             content := "c", dist := 1, docTags := [] }] {},
        ∃ r ∈ [({ docId := "d", title := "t", page := 1, chunkIndex := 0,
                  content := "c", dist := 1, docTags := [] } : VRow)],
          s.score = 1 - r.dist ∧ SearchOpts.threshold {} ≤ s.score) := by
  have hres : vectorSearchLib
      [{ docId := "d", title := "t", page := 1, chunkIndex := 0,
         content := "c", dist := 1, docTags := [] }] {} =
      [{ docId := "d", title := "t", page := 1, chunkIndex := 0,
         content := "c", score := 1 - (1 : ℚ) / 2, matchType := .vector }] := by
    rfl
  rw [hres]
  intro h
  obtain ⟨r, hr, heq, -⟩ := h
    { docId := "d", title := "t", page := 1, chunkIndex := 0,
      content := "c", score := 1 - (1 : ℚ) / 2, matchType := .vector }
    (List.mem_singleton.mpr rfl)
  rw [List.mem_singleton] at hr
  subst hr
  simp only at heq
  norm_num at heq

lemma mem_vectorSearchPG (rows : List VRow) (opts : SearchOpts) (s : SR)
    (hs : s ∈ vectorSearchPG rows opts) :
    ∃ r ∈ rows, s = rowToSR (fun d => 1 - d) r ∧
      pgTagOk opts.tags r.docTags = true ∧ opts.threshold ≤ 1 - r.dist := by
  unfold vectorSearchPG at hs
  simp only [List.mem_map] at hs
  obtain ⟨r, hr, hsr⟩ := hs
  have hr2 := List.take_subset _ _ hr
  rw [List.mem_insertionSort] at hr2
  rw [List.mem_filter] at hr2
  obtain ⟨hrrows, hcond⟩ := hr2
  rw [Bool.and_eq_true, decide_eq_true_iff] at hcond
  exact ⟨r, hrrows, hsr.symm, hcond.1, hcond.2⟩

lemma mem_vectorSearchLib (rows : List VRow) (opts : SearchOpts) (s : SR)
    (hs : s ∈ vectorSearchLib rows opts) :
    ∃ r ∈ rows, s = rowToSR (fun d => 1 - d / 2) r ∧
      (opts.threshold ≤ 0 ∨ r.dist ≤ 2 * (1 - opts.threshold)) := by
  unfold vectorSearchLib at hs
  simp only [List.mem_map] at hs
  obtain ⟨r, hr, hsr⟩ := hs
  have hr2 := List.take_subset _ _ hr
  rw [List.mem_insertionSort] at hr2
  rw [List.mem_filter] at hr2
  obtain ⟨hrtop, hcond⟩ := hr2
  have hrrows : r ∈ rows := by
    have := List.take_subset _ _ hrtop
    rwa [List.mem_insertionSort] at this
  rw [Bool.and_eq_true, Bool.or_eq_true, decide_eq_true_iff, decide_eq_true_iff] at hcond
  exact ⟨r, hrrows, hsr.symm, hcond.2⟩

/-- **C1 (amended).** Scores returned by `vectorSearch`, by
implementation: the PGlite implementation returns, for each entry, the
score `1 - dist` (with `dist` the cosine distance between the query and
that entry's stored embedding) and only entries with `score ≥ threshold`;
the LibSQL implementation returns the score `1 - dist / 2` instead, and
(given that cosine distances lie in `[0, 2]` and the threshold is
nonnegative) also only entries with `score ≥ threshold`. -/
theorem claim1_amended_vectorSearch_scores (rows : List VRow) (opts : SearchOpts)
    (hd : ∀ r ∈ rows, 0 ≤ r.dist ∧ r.dist ≤ 2) (ht : 0 ≤ opts.threshold) :
    (∀ s ∈ vectorSearchPG rows opts,
      ∃ r ∈ rows, s.score = 1 - r.dist ∧ opts.threshold ≤ s.score) ∧
    (∀ s ∈ vectorSearchLib rows opts,
      ∃ r ∈ rows, s.score = 1 - r.dist / 2 ∧ opts.threshold ≤ s.score) := by
  constructor
  · intro s hs
    obtain ⟨r, hrrows, hsr, _, hthr⟩ := mem_vectorSearchPG rows opts s hs
    refine ⟨r, hrrows, ?_, ?_⟩
    · rw [hsr]; rfl
    · rw [hsr]; exact hthr
  · intro s hs
    obtain ⟨r, hrrows, hsr, hcond⟩ := mem_vectorSearchLib rows opts s hs
    have hscore : s.score = 1 - r.dist / 2 := by rw [hsr]; rfl
    refine ⟨r, hrrows, hscore, ?_⟩
    rw [hscore]
    rcases hcond with h0 | hbound
    · have hteq : opts.threshold = 0 := le_antisymm h0 ht
      have := (hd r hrrows).2
      rw [hteq]
      linarith
    · linarith

/-- The stored row of the C1 witness: cosine distance `1/2`. -/
def c1wRow : VRow :=
  { docId := "d", title := "t", page := 1, chunkIndex := 0,
    content := "c", dist := 1/2, docTags := [] }

/-- The search result the PGlite implementation returns for `c1wRow`. -/
def c1wSR : SR :=
  { docId := "d", title := "t", page := 1, chunkIndex := 0,
    content := "c", score := 1 - (1 : ℚ)/2, matchType := .vector }

/-- Witness for C1 (amended): a store with one row at distance `1/2` and
threshold `1/4`; the PGlite implementation returns it with score
`1 - 1/2 ≥ 1/4`. -/
theorem claim1_amended_vectorSearch_scores_witness :
    ∃ r ∈ [c1wRow], c1wSR.score = 1 - r.dist ∧ (1/4 : ℚ) ≤ c1wSR.score := by
  have hres : vectorSearchPG [c1wRow] { threshold := 1/4 } = [c1wSR] := by
    unfold vectorSearchPG c1wRow c1wSR
    norm_num [pgTagOk, List.insertionSort, List.orderedInsert, rowToSR]
  exact (claim1_amended_vectorSearch_scores [c1wRow] { threshold := 1/4 }
    (by intro r hr; rw [List.mem_singleton] at hr; subst hr; unfold c1wRow; norm_num)
    (by norm_num)).1 _ (hres ▸ List.mem_singleton_self _)

/-! ## Transactional writes (`LibSQLDatabase.addChunks` / `addEmbeddings`)

The schema (`initSchema`, LibSQL lines 1006-1022) declares
`chunks.doc_id REFERENCES documents(id)` and
`embeddings.chunk_id (PRIMARY KEY) REFERENCES chunks(id)`; `id` columns are
primary keys.  `addChunks` executes its inserts with
`client.batch(statements, "write")` — an implicit transaction (the PGlite
implementation wraps the same inserts in explicit
`BEGIN`/`COMMIT`/`ROLLBACK`).  The SQL engine's per-row insert semantics
(primary-key and foreign-key checks) is embedded directly. -/

/-- Model of a `documents` row (the fields the claims need). -/
structure DocRec where
  id : String
  title : String
  path : String
  tags : List String
deriving DecidableEq, Repr

/-- Model of a `chunks` row. -/
structure ChunkRec where
  id : String
  docId : String
  page : Nat
  chunkIndex : Nat
  content : String
deriving DecidableEq, Repr

/-- Model of an `embeddings` row. -/
structure EmbRec where
  chunkId : String
  embedding : List JSNum
deriving DecidableEq, Repr

/-- Model of `DatabaseError` from `types.ts`. -/
inductive DBErr where
  | fkViolation
  | pkViolation
deriving DecidableEq, Repr

/-- The persistent state: the three tables of the store. -/
structure DB where
  documents : List DocRec
  chunks : List ChunkRec
  embeddings : List EmbRec
deriving DecidableEq, Repr

/-- `INSERT INTO chunks ...`: fails on a foreign-key violation (no
document with the referenced id) or a primary-key violation (duplicate
chunk id); otherwise appends the row. -/
def insertChunk (db : DB) (c : ChunkRec) : Except DBErr DB :=
  if db.documents.all (fun d => d.id ≠ c.docId) then .error .fkViolation
  else if db.chunks.any (fun c0 => c0.id = c.id) then .error .pkViolation
  else .ok { db with chunks := db.chunks ++ [c] }

/-- `addChunks` (LibSQL lines 643-660): all inserts run in one
transaction; if any insert fails the whole batch is rolled back, leaving
the state unchanged. -/
def addChunks (db : DB) (batch : List ChunkRec) : Except DBErr DB × DB :=
  match batch.foldlM insertChunk db with
  | .ok db1 => (.ok db1, db1)
  | .error e => (.error e, db)

/-- `INSERT INTO embeddings ...`: fails on a foreign-key violation (no
chunk with the referenced id) or a duplicate `chunk_id` primary key;
otherwise appends the row. -/
def insertEmbedding (db : DB) (r : EmbRec) : Except DBErr DB :=
  if db.chunks.all (fun c => c.id ≠ r.chunkId) then .error .fkViolation
  else if db.embeddings.any (fun e0 => e0.chunkId = r.chunkId) then .error .pkViolation
  else .ok { db with embeddings := db.embeddings ++ [r] }

/-- `addEmbeddings` (LibSQL lines 662-673): one transaction, full
rollback on any failure. -/
def addEmbeddings (db : DB) (batch : List EmbRec) : Except DBErr DB × DB :=
  match batch.foldlM insertEmbedding db with
  | .ok db1 => (.ok db1, db1)
  | .error e => (.error e, db)

lemma insertChunk_documents (db : DB) (c : ChunkRec) (db1 : DB)
    (h : insertChunk db c = .ok db1) : db1.documents = db.documents := by
  unfold insertChunk at h
  by_cases h1 : db.documents.all (fun d => d.id ≠ c.docId)
  · rw [if_pos h1] at h; cases h
  · rw [if_neg h1] at h
    by_cases h2 : db.chunks.any (fun c0 => c0.id = c.id)
    · rw [if_pos h2] at h; cases h
    · rw [if_neg h2] at h
      cases h
      rfl

lemma foldl_insertChunk_error (batch : List ChunkRec) (db : DB)
    (h : ∃ c ∈ batch, ∀ d ∈ db.documents, d.id ≠ c.docId) :
    ∃ e, batch.foldlM insertChunk db = .error e := by
  induction batch generalizing db with
  | nil => obtain ⟨c, hc, -⟩ := h; cases hc
  | cons b rest ih =>
    rw [List.foldlM_cons]
    cases hb : insertChunk db b with
    | error e => exact ⟨e, rfl⟩
    | ok db1 =>
      obtain ⟨c, hc, hmiss⟩ := h
      rcases List.mem_cons.mp hc with hcb | hcrest
      · subst hcb
        exfalso
        unfold insertChunk at hb
        rw [if_pos (by rw [List.all_eq_true]; intro d hd; exact decide_eq_true (hmiss d hd))] at hb
        cases hb
      · have hdocs := insertChunk_documents db b db1 hb
        exact ih db1 ⟨c, hcrest, by rw [hdocs]; exact hmiss⟩

/-- **C8.** If any chunk in a batch references a document id that does not
exist in the documents table, `addChunks` fails with a storage error and
the state is unchanged — no chunk from the batch is persisted. -/
theorem claim8_addChunks_atomic (db : DB) (batch : List ChunkRec)
    (h : ∃ c ∈ batch, ∀ d ∈ db.documents, d.id ≠ c.docId) :
    ∃ e, addChunks db batch = (.error e, db) := by
  obtain ⟨e, he⟩ := foldl_insertChunk_error batch db h
  exact ⟨e, by unfold addChunks; rw [he]⟩

/-- Witness for C8: a batch whose second chunk references a missing
document is rejected whole, leaving the single-document store unchanged. -/
theorem claim8_addChunks_atomic_witness :
    ∃ e, addChunks
        { documents := [{ id := "doc1", title := "T", path := "/p", tags := [] }],
          chunks := [], embeddings := [] }
        [{ id := "c0", docId := "doc1", page := 1, chunkIndex := 0, content := "good" },
         { id := "c1", docId := "missing", page := 1, chunkIndex := 0, content := "bad" }] =
      (.error e,
        { documents := [{ id := "doc1", title := "T", path := "/p", tags := [] }],
          chunks := [], embeddings := [] }) := by
  exact claim8_addChunks_atomic _ _
    ⟨{ id := "c1", docId := "missing", page := 1, chunkIndex := 0, content := "bad" },
      by decide, by decide⟩

/-! ## Hybrid merge (`index.ts` `search`, lines 258-287)

For each full-text result the merge looks for an already-collected result
with the same `(docId, page, chunkIndex)`; if none exists the result is
appended, otherwise the existing entry is replaced in place by a boosted
copy of itself. -/

/-- The deduplication key of a search result. -/
def key (r : SR) : String × Nat × Nat := (r.docId, r.page, r.chunkIndex)

/-- The key comparison of the merge loop
(`r.docId === fts.docId && r.page === fts.page &&
r.chunkIndex === fts.chunkIndex`). -/
def keyEq (a b : SR) : Bool := decide (key a = key b)

/-- Key inequality, used to state that distinct chunks have distinct
deduplication keys. -/
def keyNe (a b : SR) : Prop := keyEq a b = false

/-- The boosted copy built for a result found by both searches:
`score = Math.min(1, exists.score * 1.2)`, `matchType = "hybrid"`. -/
def boost (r : SR) : SR :=
  { r with score := min 1 (r.score * (6 / 5)), matchType := .hybrid }

/-- `results.find(...)` followed by `results[idx] = boosted`: replace the
first entry whose key matches `f` by its boosted copy; `none` when no
entry matches. -/
def replaceFirstMatch (f : SR) : List SR → Option (List SR)
  | [] => none
  | r :: rest =>
    if keyEq r f then some (boost r :: rest)
    else (replaceFirstMatch f rest).map (fun l => r :: l)

/-- One iteration of the merge loop for a single full-text result. -/
def mergeStep (acc : List SR) (f : SR) : List SR :=
  match replaceFirstMatch f acc with
  | none => acc ++ [f]
  | some acc1 => acc1

/-- The whole merge loop: fold the full-text results into the collected
vector results. -/
def mergeFts (vecR ftsR : List SR) : List SR := ftsR.foldl mergeStep vecR

instance : DecidableRel keyNe :=
  fun a b => inferInstanceAs (Decidable (keyEq a b = false))

lemma keyEq_refl (a : SR) : keyEq a a = true := by
  unfold keyEq; exact decide_eq_true rfl

lemma keyEq_true_iff {a b : SR} : keyEq a b = true ↔ key a = key b := by
  unfold keyEq; exact decide_eq_true_iff

lemma keyEq_false_iff {a b : SR} : keyEq a b = false ↔ key a ≠ key b := by
  unfold keyEq; exact decide_eq_false_iff_not

lemma keyEq_symm_false {a b : SR} (h : keyEq a b = false) : keyEq b a = false := by
  rw [keyEq_false_iff] at h ⊢
  exact fun hk => h hk.symm

lemma key_boost (r : SR) : key (boost r) = key r := rfl

lemma keyEq_boost_left (r s : SR) : keyEq (boost r) s = keyEq r s := by
  unfold keyEq; rw [key_boost]

lemma keyEq_false_of_eq_of_false {r g f : SR} (h1 : keyEq r g = true)
    (h2 : keyEq g f = false) : keyEq r f = false := by
  unfold keyEq at *
  rw [decide_eq_true_iff] at h1
  rw [decide_eq_false_iff_not] at h2 ⊢
  rw [h1]; exact h2

lemma replaceFirstMatch_eq_none {f : SR} {l : List SR} :
    replaceFirstMatch f l = none ↔ ∀ r ∈ l, keyEq r f = false := by
  induction l with
  | nil =>
    exact ⟨fun _ r hr => absurd hr (List.not_mem_nil r), fun _ => rfl⟩
  | cons r rest ih =>
    unfold replaceFirstMatch
    by_cases h : keyEq r f
    · rw [if_pos h]
      refine ⟨fun hc => (nomatch hc), fun hall => ?_⟩
      have hrf := hall r (List.mem_cons_self ..)
      rw [hrf] at h
      cases h
    · rw [if_neg h]
      constructor
      · intro hmap x hx
        have hrest : replaceFirstMatch f rest = none := by
          cases hm : replaceFirstMatch f rest with
          | none => rfl
          | some l2 => rw [hm] at hmap; cases hmap
        rcases List.mem_cons.mp hx with hxr | hxrest
        · subst hxr; exact Bool.eq_false_iff.mpr h
        · exact ih.mp hrest x hxrest
      · intro hall
        have hrest : replaceFirstMatch f rest = none :=
          ih.mpr (fun x hx => hall x (List.mem_cons_of_mem _ hx))
        rw [hrest]
        rfl

lemma replaceFirstMatch_filter_other {g f : SR} (hgf : keyEq g f = false) :
    ∀ {l acc1 : List SR}, replaceFirstMatch g l = some acc1 →
      acc1.filter (fun r => keyEq r f) = l.filter (fun r => keyEq r f) := by
  intro l
  induction l with
  | nil => intro acc1 h; cases h
  | cons r rest ih =>
    intro acc1 h
    unfold replaceFirstMatch at h
    by_cases hr : keyEq r g
    · rw [if_pos hr] at h
      cases h
      have hrf : keyEq r f = false := keyEq_false_of_eq_of_false hr hgf
      have hbf : keyEq (boost r) f = false := by rw [keyEq_boost_left]; exact hrf
      rw [List.filter_cons, List.filter_cons, hrf, hbf]
      simp
    · rw [if_neg hr] at h
      cases hmap : replaceFirstMatch g rest with
      | none => rw [hmap] at h; cases h
      | some inner =>
        rw [hmap] at h
        cases h
        rw [List.filter_cons, List.filter_cons, ih hmap]

lemma replaceFirstMatch_filter_singleton {f v : SR} :
    ∀ {l acc1 : List SR}, l.filter (fun r => keyEq r f) = [v] →
      replaceFirstMatch f l = some acc1 →
      acc1.filter (fun r => keyEq r f) = [boost v] := by
  intro l
  induction l with
  | nil => intro acc1 hf h; cases h
  | cons r rest ih =>
    intro acc1 hf h
    unfold replaceFirstMatch at h
    by_cases hr : keyEq r f
    · rw [if_pos hr] at h
      cases h
      rw [List.filter_cons, hr] at hf
      simp only [if_true] at hf
      have hrv : r = v := by
        have := List.cons.injEq r (rest.filter fun r => keyEq r f) v [] ▸ hf
        exact (List.cons_eq_cons.mp hf).1
      have hrest : rest.filter (fun r => keyEq r f) = [] :=
        (List.cons_eq_cons.mp hf).2
      rw [List.filter_cons]
      rw [keyEq_boost_left, hr]
      simp only [if_true]
      rw [hrest, hrv]
    · rw [if_neg hr] at h
      cases hmap : replaceFirstMatch f rest with
      | none => rw [hmap] at h; cases h
      | some inner =>
        rw [hmap] at h
        cases h
        rw [List.filter_cons] at hf
        rw [Bool.eq_false_iff.mpr hr] at hf
        simp only [Bool.false_eq_true, if_false] at hf
        rw [List.filter_cons, Bool.eq_false_iff.mpr hr]
        simp only [Bool.false_eq_true, if_false]
        exact ih hf hmap

lemma mergeStep_filter_other {g f : SR} (hgf : keyEq g f = false)
    (acc : List SR) :
    (mergeStep acc g).filter (fun r => keyEq r f) =
      acc.filter (fun r => keyEq r f) := by
  unfold mergeStep
  cases hmap : replaceFirstMatch g acc with
  | none => rw [List.filter_append, List.filter_cons, hgf]; simp
  | some acc1 => exact replaceFirstMatch_filter_other hgf hmap

lemma foldl_mergeStep_filter_other {f : SR} :
    ∀ (l : List SR) (acc : List SR), (∀ g ∈ l, keyEq g f = false) →
      (l.foldl mergeStep acc).filter (fun r => keyEq r f) =
        acc.filter (fun r => keyEq r f) := by
  intro l
  induction l with
  | nil => intro acc _; rfl
  | cons g rest ih =>
    intro acc hall
    rw [List.foldl_cons, ih _ (fun x hx => hall x (List.mem_cons_of_mem _ hx)),
      mergeStep_filter_other (hall g (List.mem_cons_self ..)) acc]

lemma mergeStep_filter_hit_none {f : SR} (acc : List SR)
    (hf : acc.filter (fun r => keyEq r f) = []) :
    (mergeStep acc f).filter (fun r => keyEq r f) = [f] := by
  unfold mergeStep
  have hnone : replaceFirstMatch f acc = none := by
    rw [replaceFirstMatch_eq_none]
    intro r hr
    exact Bool.eq_false_iff.mpr (List.filter_eq_nil_iff.mp hf r hr)
  rw [hnone, List.filter_append, hf, List.filter_cons, keyEq_refl]
  rfl

lemma mergeStep_filter_hit_some {f v : SR} (acc : List SR)
    (hf : acc.filter (fun r => keyEq r f) = [v]) :
    (mergeStep acc f).filter (fun r => keyEq r f) = [boost v] := by
  unfold mergeStep
  cases hmap : replaceFirstMatch f acc with
  | none =>
    exfalso
    rw [replaceFirstMatch_eq_none] at hmap
    have : v ∈ acc.filter (fun r => keyEq r f) := by rw [hf]; exact List.mem_singleton_self v
    rw [List.mem_filter] at this
    rw [hmap v this.1] at this
    exact Bool.false_ne_true this.2
  | some acc1 => exact replaceFirstMatch_filter_singleton hf hmap

lemma merge_filter_main {f : SR} :
    ∀ (l : List SR) (acc : List SR), l.Pairwise keyNe → f ∈ l →
      (acc.filter (fun r => keyEq r f) = [] →
        (l.foldl mergeStep acc).filter (fun r => keyEq r f) = [f]) ∧
      (∀ v, acc.filter (fun r => keyEq r f) = [v] →
        (l.foldl mergeStep acc).filter (fun r => keyEq r f) = [boost v]) := by
  intro l
  induction l with
  | nil => intro acc _ hf; cases hf
  | cons g rest ih =>
    intro acc hpw hf
    have hpw2 := List.pairwise_cons.mp hpw
    rcases List.mem_cons.mp hf with hfg | hfrest
    · subst hfg
      have hrest : ∀ x ∈ rest, keyEq x f = false := by
        intro x hx
        exact keyEq_symm_false (hpw2.1 x hx)
      constructor
      · intro hempty
        rw [List.foldl_cons, foldl_mergeStep_filter_other rest _ hrest,
          mergeStep_filter_hit_none acc hempty]
      · intro v hsingle
        rw [List.foldl_cons, foldl_mergeStep_filter_other rest _ hrest,
          mergeStep_filter_hit_some acc hsingle]
    · have hgf : keyEq g f = false := hpw2.1 f hfrest
      constructor
      · intro hempty
        rw [List.foldl_cons]
        exact (ih _ hpw2.2 hfrest).1
          (by rw [mergeStep_filter_other hgf acc]; exact hempty)
      · intro v hsingle
        rw [List.foldl_cons]
        exact (ih _ hpw2.2 hfrest).2 v
          (by rw [mergeStep_filter_other hgf acc]; exact hsingle)

lemma filter_keyEq_of_pairwise {vecR : List SR} (hv : vecR.Pairwise keyNe)
    {v f : SR} (hvmem : v ∈ vecR) (hvf : keyEq v f = true) :
    vecR.filter (fun r => keyEq r f) = [v] := by
  induction vecR with
  | nil => cases hvmem
  | cons r rest ih =>
    have hpw2 := List.pairwise_cons.mp hv
    rcases List.mem_cons.mp hvmem with hvr | hvrest
    · subst hvr
      rw [List.filter_cons, hvf]
      simp only [if_true]
      have hrest : rest.filter (fun r => keyEq r f) = [] := by
        rw [List.filter_eq_nil_iff]
        intro x hx hxf
        have h1 : key v ≠ key x := keyEq_false_iff.mp (hpw2.1 x hx)
        exact h1 ((keyEq_true_iff.mp hvf).trans (keyEq_true_iff.mp hxf).symm)
      rw [hrest]
    · have hrf : keyEq r f = false := by
        rw [keyEq_false_iff]
        intro hrfk
        exact keyEq_false_iff.mp (hpw2.1 v hvrest)
          (hrfk.trans (keyEq_true_iff.mp hvf).symm)
      rw [List.filter_cons, hrf]
      simp only [Bool.false_eq_true, if_false]
      exact ih hpw2.2 hvrest

/-- **C2.** During hybrid merging with pairwise-distinct chunk keys on
each side: a full-text result whose `(docId, page, chunkIndex)` matches an
already-collected vector result `v` leaves exactly one merged entry for
that key, namely `v` with `matchType = hybrid` and
`score = min(1, v.score * 1.2)`; a full-text result matching no collected
entry appears in the merged list exactly once, unchanged. -/
theorem claim2_hybrid_merge (vecR ftsR : List SR)
    (hv : vecR.Pairwise keyNe) (hf : ftsR.Pairwise keyNe) :
    ∀ f ∈ ftsR,
      (∀ v ∈ vecR, keyEq v f = true →
        (mergeFts vecR ftsR).filter (fun r => keyEq r f) =
          [{ v with score := min 1 (v.score * (6 / 5)), matchType := .hybrid }]) ∧
      ((∀ v ∈ vecR, keyEq v f = false) →
        (mergeFts vecR ftsR).filter (fun r => keyEq r f) = [f]) := by
  intro f hfmem
  constructor
  · intro v hvmem hvf
    have hsingle := filter_keyEq_of_pairwise hv hvmem hvf
    exact (merge_filter_main ftsR vecR hf hfmem).2 v hsingle
  · intro hnone
    have hempty : vecR.filter (fun r => keyEq r f) = [] := by
      rw [List.filter_eq_nil_iff]
      intro x hx
      rw [hnone x hx]
      exact Bool.false_ne_true
    exact (merge_filter_main ftsR vecR hf hfmem).1 hempty

/-- Witness for C2: one vector result and one full-text result for the
same chunk merge into a single hybrid entry with the boosted score. -/
theorem claim2_hybrid_merge_witness :
    (mergeFts
        [{ docId := "d", title := "T", page := 1, chunkIndex := 2,
           content := "c", score := 1/2, matchType := .vector }]
        [{ docId := "d", title := "T", page := 1, chunkIndex := 2,
           content := "c", score := 3, matchType := .fts }]).filter
      (fun r => keyEq r { docId := "d", title := "T", page := 1, chunkIndex := 2,
                          content := "c", score := 3, matchType := .fts }) =
    [{ docId := "d", title := "T", page := 1, chunkIndex := 2,
       content := "c", score := min 1 ((1/2 : ℚ) * (6 / 5)), matchType := .hybrid }] := by
  exact (claim2_hybrid_merge
    [{ docId := "d", title := "T", page := 1, chunkIndex := 2,
       content := "c", score := 1/2, matchType := .vector }]
    [{ docId := "d", title := "T", page := 1, chunkIndex := 2,
       content := "c", score := 3, matchType := .fts }]
    (List.pairwise_singleton ..) (List.pairwise_singleton ..)
    _ (List.mem_singleton_self _)).1
    _ (List.mem_singleton_self _) (by decide)

/-! ## The search pipeline (`index.ts` `search`, lines 241-349)

The effectful pipeline is modelled with its collaborators as oracles:
`health` is the outcome of `ollama.checkHealth()`, `vec` the combined
outcome of `ollama.embed` + `db.vectorSearch` (attempted only when the
health check succeeded), `fts` the outcome of `db.ftsSearch`, and `store`
the outcome of `db.getExpandedContext` for the configured `expandChars`
budget. -/

/-- Model of the error channel of the pipeline (`OllamaError` or
`DatabaseError`). -/
inductive LibErr where
  | ollama (reason : String)
  | db (reason : String)
deriving DecidableEq, Repr

/-- `results.sort((a, b) => b.score - a.score).slice(0, limit)`: sort by
score descending, truncate to `limit`. -/
def sortLimit (l : List SR) (limit : Nat) : List SR :=
  (l.insertionSort (fun a b => b.score ≤ a.score)).take limit

/-- What `db.getExpandedContext` returns. -/
structure ExpCtx where
  content : String
  startIndex : Nat
  endIndex : Nat
deriving DecidableEq, Repr

/-- One entry of the per-call expansion cache (`expandedRanges`). -/
structure CacheEntry where
  startI : Nat
  endI : Nat
  content : String
deriving DecidableEq, Repr

/-- The per-call expansion cache: a map from `docId` (the cache key is
the document id only) to the last computed range and content.  `Map.set`
overwrites; lookups here take the most recent binding. -/
abbrev ExpCache := List (String × CacheEntry)

/-- `expandedRanges.get(key)`. -/
def cacheGet (m : ExpCache) (k : String) : Option CacheEntry :=
  (m.find? (fun p => p.1 == k)).map (fun p => p.2)

/-- `expandedRanges.set(key, v)` (overwriting semantics via most-recent
binding). -/
def cacheSet (m : ExpCache) (k : String) (v : CacheEntry) : ExpCache :=
  (k, v) :: m

/-- The cache-miss path of the expansion body: query the store, record
the returned range in the cache, and attach the expansion to the result.
The third component records that a storage query was issued. -/
def expandFetch (store : String → Nat → ExpCtx) (cache : ExpCache) (r : SR) :
    SR × ExpCache × Bool :=
  let x := store r.docId r.chunkIndex
  ({ r with expandedContent := some x.content,
            expandedRange := some (x.startIndex, x.endIndex) },
    cacheSet cache r.docId ⟨x.startIndex, x.endIndex, x.content⟩, true)

/-- The expansion body executed for each final result (`index.ts`
lines 300-343): on a cache hit whose range covers the result's
`chunkIndex`, reuse the cached content and range without querying the
store; otherwise fetch and cache. -/
def expandStep (store : String → Nat → ExpCtx) (cache : ExpCache) (r : SR) :
    SR × ExpCache × Bool :=
  match cacheGet cache r.docId with
  | some e =>
    if e.startI ≤ r.chunkIndex ∧ r.chunkIndex ≤ e.endI then
      ({ r with expandedContent := some e.content,
                expandedRange := some (e.startI, e.endI) }, cache, false)
    else expandFetch store cache r
  | none => expandFetch store cache r

/-- The whole expansion pass over the final results, threading one cache
per search call (`Effect.all` runs the bodies sequentially). -/
def expandAll (store : String → Nat → ExpCtx) (rs : List SR) :
    List SR × ExpCache :=
  rs.foldl
    (fun acc r =>
      let s := expandStep store acc.2 r
      (acc.1 ++ [s.1], s.2.1))
    ([], [])

/-- `search` from `index.ts` (lines 241-349): vector search when the
health check succeeds, full-text search when `hybrid` is requested or the
health check failed, merge, sort by score descending, truncate to
`limit`, and optionally expand. -/
def search (health : Except LibErr Unit) (vec : Except LibErr (List SR))
    (fts : Except LibErr (List SR)) (store : String → Nat → ExpCtx)
    (opts : SearchOpts) : Except LibErr (List SR) := do
  let results ← match health with
    | .ok _ => vec
    | .error _ => pure []
  let hFail : Bool := match health with
    | .error _ => true
    | .ok _ => false
  let merged ←
    if opts.hybrid || hFail then do
      let f ← fts
      pure (mergeFts results f)
    else pure results
  let final := sortLimit merged opts.limit
  if 0 < opts.expandChars then pure (expandAll store final).1
  else pure final

lemma mergeFts_disjoint :
    ∀ (l acc : List SR), (∀ a ∈ acc, ∀ b ∈ l, keyEq a b = false) →
      l.Pairwise keyNe → l.foldl mergeStep acc = acc ++ l := by
  intro l
  induction l with
  | nil => intro acc _ _; simp
  | cons g rest ih =>
    intro acc hdisj hpw
    have hpw2 := List.pairwise_cons.mp hpw
    rw [List.foldl_cons]
    have hstep : mergeStep acc g = acc ++ [g] := by
      unfold mergeStep
      have hnone : replaceFirstMatch g acc = none := by
        rw [replaceFirstMatch_eq_none]
        intro r hr
        exact hdisj r hr g (List.mem_cons_self ..)
      rw [hnone]
    rw [hstep, ih (acc ++ [g]) ?_ hpw2.2]
    · simp
    · intro a ha b hb
      rcases List.mem_append.mp ha with hacc | hg
      · exact hdisj a hacc b (List.mem_cons_of_mem _ hb)
      · rw [List.mem_singleton] at hg
        subst hg
        exact hpw2.1 b hb

lemma mem_sortLimit {l : List SR} {limit : Nat} {r : SR}
    (h : r ∈ sortLimit l limit) : r ∈ l := by
  unfold sortLimit at h
  have := List.take_subset _ _ h
  rwa [List.mem_insertionSort] at this

/-- **C9.** When the embedding-service health check fails, `search` does
not fail: it skips the vector path entirely and returns the (deduplicated,
sorted, truncated) full-text results, which keep `matchType = "fts"`; in
that situation `search` fails exactly when the full-text query itself
errors, and with that same storage error. -/
theorem claim9_search_degrades_to_fts (err : LibErr)
    (vec fts : Except LibErr (List SR)) (store : String → Nat → ExpCtx)
    (opts : SearchOpts) (hexp : opts.expandChars = 0) :
    (∀ e, fts = .error e →
      search (.error err) vec fts store opts = .error e) ∧
    (∀ l, fts = .ok l → l.Pairwise keyNe → (∀ r ∈ l, r.matchType = .fts) →
      search (.error err) vec fts store opts = .ok (sortLimit l opts.limit) ∧
        ∀ r ∈ sortLimit l opts.limit, r.matchType = .fts) := by
  constructor
  · intro e he
    subst he
    unfold search
    cases opts.hybrid <;> rfl
  · intro l hl hpw hfts
    subst hl
    have hmerge : mergeFts [] l = l := by
      unfold mergeFts
      rw [mergeFts_disjoint l [] (fun a ha => absurd ha (List.not_mem_nil a)) hpw]
      rfl
    refine ⟨?_, fun r hr => hfts r (mem_sortLimit hr)⟩
    unfold search
    cases hhyb : opts.hybrid <;>
      simp [Bind.bind, Except.bind, pure, Except.pure, hmerge, hexp]

/-- Witness for C9: with a failed health check and two full-text hits the
search returns exactly those hits, sorted by score, all tagged `fts`. -/
theorem claim9_search_degrades_to_fts_witness :
    search (.error (.ollama "down"))
        (.error (.ollama "unused"))
        (.ok [{ docId := "d", title := "T", page := 1, chunkIndex := 0,
                content := "a", score := 1/2, matchType := .fts },
              { docId := "d", title := "T", page := 2, chunkIndex := 3,
                content := "b", score := 2/3, matchType := .fts }])
        (fun _ _ => ⟨"", 0, 0⟩) {} =
      .ok (sortLimit
        [{ docId := "d", title := "T", page := 1, chunkIndex := 0,
           content := "a", score := 1/2, matchType := .fts },
         { docId := "d", title := "T", page := 2, chunkIndex := 3,
           content := "b", score := 2/3, matchType := .fts }] 10) := by
  exact ((claim9_search_degrades_to_fts (.ollama "down") (.error (.ollama "unused"))
    (.ok [{ docId := "d", title := "T", page := 1, chunkIndex := 0,
            content := "a", score := 1/2, matchType := .fts },
          { docId := "d", title := "T", page := 2, chunkIndex := 3,
            content := "b", score := 2/3, matchType := .fts }])
    (fun _ _ => ⟨"", 0, 0⟩) {} rfl).2 _ rfl
    (by decide) (by decide)).1

/-- **C3.** Within one search call, if the expansion cache already holds a
range for the result's document and the result's `chunkIndex` lies inside
that inclusive range, then the expansion body returns exactly the cached
content and range, leaves the cache unchanged, and issues no
`getExpandedContext` storage query; and the expansion pass applies that
body to each result with the cache threaded from the previous results. -/
theorem claim3_expansion_cache_reuse :
    (∀ (store : String → Nat → ExpCtx) (cache : ExpCache) (r : SR)
        (e : CacheEntry), cacheGet cache r.docId = some e →
        e.startI ≤ r.chunkIndex → r.chunkIndex ≤ e.endI →
        expandStep store cache r =
          ({ r with expandedContent := some e.content,
                    expandedRange := some (e.startI, e.endI) }, cache, false)) ∧
    (∀ (store : String → Nat → ExpCtx) (rs : List SR) (r : SR),
        expandAll store (rs ++ [r]) =
          ((expandAll store rs).1 ++ [(expandStep store (expandAll store rs).2 r).1],
            (expandStep store (expandAll store rs).2 r).2.1)) := by
  constructor
  · intro store cache r e hget h1 h2
    unfold expandStep
    simp only [hget]
    rw [if_pos ⟨h1, h2⟩]
  · intro store rs r
    unfold expandAll
    rw [List.foldl_append]
    rfl

/-- Witness for C3: a cache holding `[2, 5]` for document `d` makes the
body reuse the cached expansion for a hit at chunk 3 of `d`, with no
storage query. -/
theorem claim3_expansion_cache_reuse_witness :
    expandStep (fun _ _ => ⟨"FRESH", 9, 9⟩)
        [("d", ⟨2, 5, "CACHED"⟩)]
        { docId := "d", title := "T", page := 1, chunkIndex := 3,
          content := "c", score := 1, matchType := .vector } =
      ({ docId := "d", title := "T", page := 1, chunkIndex := 3,
         content := "c", score := 1, matchType := .vector,
         expandedContent := some "CACHED", expandedRange := some (2, 5) },
        [("d", ⟨2, 5, "CACHED"⟩)], false) := by
  exact claim3_expansion_cache_reuse.1 (fun _ _ => ⟨"FRESH", 9, 9⟩)
    [("d", ⟨2, 5, "CACHED"⟩)]
    { docId := "d", title := "T", page := 1, chunkIndex := 3,
      content := "c", score := 1, matchType := .vector }
    ⟨2, 5, "CACHED"⟩ rfl (by decide) (by decide)

/-! ## Adding a document (`index.ts` `add`, lines 77-236)

Collaborator outcomes are again passed as oracles: `health` for
`ollama.checkHealth()`, `extracted` for the PDF/Markdown extraction
(page count and chunk triples `(page, chunkIndex, content)`), `title`
for the title-determination logic, `sizeBytes` for `statSync`, `hash`
for the sha256-based id, and `embeds` for `ollama.embedBatch`. -/

/-- Error channel of `add` (`DocumentExistsError`,
`OllamaError`, extraction errors, `DocumentNotFoundError` for empty
extraction, `DatabaseError`). -/
inductive AddErr where
  | docExists (title path : String)
  | ollama (e : OllamaError)
  | extract (reason : String)
  | noContent
  | storage (e : DBErr)
deriving DecidableEq, Repr

/-- The tilde character. -/
def tildeChar : Char := Char.ofNat 126

/-- Path resolution at the top of `add`: a leading `~` is replaced by the
home directory (`pdfPath.startsWith("~") ? pdfPath.replace("~", HOME) :
pdfPath`; the first `~` is the leading one). -/
def resolvePath (home p : String) : String :=
  match p.data with
  | c :: rest => if c = tildeChar then home ++ String.mk rest else p
  | [] => p

/-- `addDocument` (insert-or-update by id). -/
def upsertDoc (docs : List DocRec) (d : DocRec) : List DocRec :=
  if docs.any (fun d0 => d0.id = d.id) then
    docs.map (fun d0 => if d0.id = d.id then d else d0)
  else docs ++ [d]

/-- `add` from `index.ts`: resolve the path, fail with
`DocumentExistsError` if a document with that path already exists, check
the embedding service, extract, then write the document, its chunks and
its embeddings (each chunk/embedding batch transactionally). -/
def add (db : DB) (path : String) (home : String) (hash : String → String)
    (health : Except OllamaError Unit)
    (extracted : Except String (Nat × List (Nat × Nat × String)))
    (title : String) (tags : List String)
    (embeds : List String → Except OllamaError (List (List JSNum))) :
    Except AddErr DocRec × DB :=
  let resolved := resolvePath home path
  match db.documents.find? (fun d => d.path == resolved) with
  | some d => (.error (.docExists d.title resolved), db)
  | none =>
    match health with
    | .error e => (.error (.ollama e), db)
    | .ok _ =>
      let id := hash resolved
      match extracted with
      | .error e => (.error (.extract e), db)
      | .ok (_pageCount, chunks) =>
        if chunks.isEmpty then (.error .noContent, db)
        else
          let doc : DocRec := { id := id, title := title, path := resolved, tags := tags }
          let db1 : DB := { db with documents := upsertDoc db.documents doc }
          let recs := chunks.enum.map
            (fun p => ({ id := id ++ "-" ++ Nat.repr p.1, docId := id,
                         page := p.2.1, chunkIndex := p.2.2.1,
                         content := p.2.2.2 } : ChunkRec))
          match addChunks db1 recs with
          | (.error e, db2) => (.error (.storage e), db2)
          | (.ok _, db2) =>
            match embeds (chunks.map (fun c => c.2.2)) with
            | .error e => (.error (.ollama e), db2)
            | .ok vecs =>
              let embRecs := vecs.enum.map
                (fun p => ({ chunkId := id ++ "-" ++ Nat.repr p.1,
                             embedding := p.2 } : EmbRec))
              match addEmbeddings db2 embRecs with
              | (.error e, db3) => (.error (.storage e), db3)
              | (.ok _, db3) => (.ok doc, db3)

/-- **C10.** If a document with the resolved path already exists, `add`
fails with `DocumentExistsError` carrying that document's title and the
resolved path, and the whole store (documents, chunks and embeddings) is
left unchanged — the existence check precedes every write. -/
theorem claim10_add_existing_path (db : DB) (path home : String)
    (hash : String → String) (health : Except OllamaError Unit)
    (extracted : Except String (Nat × List (Nat × Nat × String)))
    (title : String) (tags : List String)
    (embeds : List String → Except OllamaError (List (List JSNum)))
    (d : DocRec)
    (hfound : db.documents.find? (fun d0 => d0.path == resolvePath home path) = some d) :
    add db path home hash health extracted title tags embeds =
      (.error (.docExists d.title (resolvePath home path)), db) := by
  unfold add
  simp only [hfound]

/-- Witness for C10: adding a path already present in the store fails
with `DocumentExistsError` and does not change the store. -/
theorem claim10_add_existing_path_witness :
    add
      { documents := [{ id := "abc", title := "Existing", path := "/docs/a.pdf", tags := [] }],
        chunks := [], embeddings := [] }
      "/docs/a.pdf" "/home/u" (fun _ => "abc") (.ok ())
      (.ok (1, [(1, 0, "some extracted content")])) "Fresh" []
      (fun _ => .ok []) =
    (.error (.docExists "Existing" "/docs/a.pdf"),
      { documents := [{ id := "abc", title := "Existing", path := "/docs/a.pdf", tags := [] }],
        chunks := [], embeddings := [] }) := by
  exact claim10_add_existing_path
    { documents := [{ id := "abc", title := "Existing", path := "/docs/a.pdf", tags := [] }],
      chunks := [], embeddings := [] }
    "/docs/a.pdf" "/home/u" (fun _ => "abc") (.ok ())
    (.ok (1, [(1, 0, "some extracted content")])) "Fresh" []
    (fun _ => .ok [])
    { id := "abc", title := "Existing", path := "/docs/a.pdf", tags := [] } (by decide)

/-! ## Context expansion (`LibSQLDatabase.getExpandedContext`,
lines 810-886)

The document's chunks are modelled as a list of contents indexed by
`chunk_index` (the data model guarantees chunk indices are contiguous
from 0).  Chunk contents are `List Char` so that `content.length` is the
JS string length.  The float comparison
`totalContent.length + content.length > maxChars * 1.2` is modelled
exactly as `5 * (total + len) > 6 * maxChars`. -/

/-- A JS string as a list of characters. -/
abbrev Str := List Char

/-- `direction` option of `getExpandedContext`. -/
inductive Direction where
  | before
  | after
  | both
deriving DecidableEq, Repr

/-- The backward expansion loop: `i` is the current `beforeIdx`
candidate; chunks are prepended (`beforeContent + "\n" + totalContent`)
while the current window is below `maxChars` and the candidate exists and
would not push `total + candidate` beyond `maxChars * 1.2`.  Returns the
window and its `startIdx` (the invariant is that the current start is
`i + 1`). -/
def expandBefore (doc : List Str) (maxChars : Nat) : Nat → Str → Str × Nat
  | i, total =>
    if total.length < maxChars then
      match doc[i]? with
      | none => (total, i + 1)
      | some c =>
        if 6 * maxChars < 5 * (total.length + c.length) then (total, i + 1)
        else
          match i with
          | 0 => (c ++ nlc :: total, 0)
          | j + 1 => expandBefore doc maxChars j (c ++ nlc :: total)
    else (total, i + 1)

/-- The forward expansion loop: `i` is the current `afterIdx` candidate,
chunks are appended (`totalContent + "\n" + afterContent`); `fuel`
bounds the iteration count (the loop stops by itself once `doc[i]?` runs
out, so any `fuel ≥ doc.length` is exact).  Returns the window and its
`endIdx` (the current end is `i - 1`). -/
def expandAfter (doc : List Str) (maxChars : Nat) : Nat → Nat → Str → Str × Nat
  | 0, i, total => (total, i - 1)
  | fuel + 1, i, total =>
    if total.length < maxChars then
      match doc[i]? with
      | none => (total, i - 1)
      | some c =>
        if 6 * maxChars < 5 * (total.length + c.length) then (total, i - 1)
        else expandAfter doc maxChars fuel (i + 1) (total ++ nlc :: c)
    else (total, i - 1)

/-- The `// Expand before` block: runs only for direction `before` or
`both`, and only when a predecessor index exists (`beforeIdx ≥ 0`). -/
def beforePart (doc : List Str) (maxChars chunkIndex : Nat) (target : Str)
    (dir : Direction) : Str × Nat :=
  if dir = Direction.before ∨ dir = Direction.both then
    match chunkIndex with
    | 0 => (target, 0)
    | j + 1 => expandBefore doc maxChars j target
  else (target, chunkIndex)

/-- The `// Expand after` block: runs only for direction `after` or
`both`, starting at `chunkIndex + 1` with the window produced by the
before-phase. -/
def afterPart (doc : List Str) (maxChars chunkIndex : Nat) (dir : Direction)
    (st1 : Str × Nat) : Str × Nat :=
  if dir = Direction.after ∨ dir = Direction.both then
    expandAfter doc maxChars (doc.length + 1) (chunkIndex + 1) st1.1
  else (st1.1, chunkIndex)

/-- `getExpandedContext` (LibSQL lines 810-886): missing target yields
empty content with `start = end = chunkIndex`; otherwise the window
starts at the target chunk, grows backwards then forwards according to
`direction`, and the inclusive index range of the included chunks is
returned. -/
def getExpandedContext (doc : List Str) (chunkIndex maxChars : Nat)
    (dir : Direction) : Str × Nat × Nat :=
  match doc[chunkIndex]? with
  | none => ([], chunkIndex, chunkIndex)
  | some target =>
    let st1 := beforePart doc maxChars chunkIndex target dir
    let st2 := afterPart doc maxChars chunkIndex dir st1
    (st2.1, st1.2, st2.2)

/-- Join chunk contents with a single newline, in document order. -/
def joinNL : List Str → Str
  | [] => []
  | [x] => x
  | x :: y :: xs => x ++ nlc :: joinNL (y :: xs)

/-- The inclusive slice `doc[s..e]`. -/
def sliceIncl (doc : List Str) (s e : Nat) : List Str :=
  (doc.drop s).take (e + 1 - s)

lemma joinNL_cons {x : Str} {l : List Str} (hl : l ≠ []) :
    joinNL (x :: l) = x ++ nlc :: joinNL l := by
  cases l with
  | nil => exact absurd rfl hl
  | cons y ys => rfl

lemma joinNL_append_singleton {l : List Str} {c : Str} (hl : l ≠ []) :
    joinNL (l ++ [c]) = joinNL l ++ nlc :: c := by
  induction l with
  | nil => exact absurd rfl hl
  | cons x xs ih =>
    cases xs with
    | nil => rfl
    | cons y ys =>
      rw [List.cons_append, joinNL_cons (by simp), joinNL_cons (by simp), ih (by simp)]
      simp

lemma sliceIncl_ne_nil {doc : List Str} {s e : Nat} (hse : s ≤ e)
    (hs : s < doc.length) : sliceIncl doc s e ≠ [] := by
  unfold sliceIncl
  intro h
  have h1 : ((doc.drop s).take (e + 1 - s)).length = 0 := by rw [h]; rfl
  rw [List.length_take, List.length_drop] at h1
  omega

lemma sliceIncl_cons {doc : List Str} {s e : Nat} (hse : s ≤ e)
    (hs : s < doc.length) :
    sliceIncl doc s e = doc[s] :: sliceIncl doc (s + 1) e := by
  unfold sliceIncl
  rw [List.drop_eq_getElem_cons hs]
  have h1 : e + 1 - s = (e - s) + 1 := by omega
  have h2 : e + 1 - (s + 1) = e - s := by omega
  rw [h1, h2, List.take_succ_cons]

lemma sliceIncl_snoc {doc : List Str} {s e : Nat} (he1 : 1 ≤ e) (hse : s ≤ e)
    (he : e < doc.length) :
    sliceIncl doc s e = sliceIncl doc s (e - 1) ++ [doc[e]] := by
  unfold sliceIncl
  have h1 : e + 1 - s = (e - s) + 1 := by omega
  rw [h1, List.take_succ]
  congr 1
  · congr 1
    omega
  · have : (doc.drop s)[e - s]? = doc[s + (e - s)]? := List.getElem?_drop ..
    rw [this, show s + (e - s) = e by omega, List.getElem?_eq_getElem he]
    rfl

lemma sliceIncl_self {doc : List Str} {i : Nat} {target : Str}
    (h : doc[i]? = some target) : sliceIncl doc i i = [target] := by
  have hi : i < doc.length := by
    by_contra hge
    have hnone : doc[i]? = none := List.getElem?_eq_none (by omega)
    rw [hnone] at h
    cases h
  rw [sliceIncl_cons (Nat.le_refl i) hi]
  unfold sliceIncl
  rw [show i + 1 - (i + 1) = 0 by omega, List.take_zero]
  rw [List.getElem?_eq_getElem hi] at h
  cases h
  rfl

lemma expandBefore_spec (doc : List Str) (maxChars : Nat) (e : Nat)
    (he : e < doc.length) :
    ∀ (i : Nat) (total : Str), i + 1 ≤ e →
      total = joinNL (sliceIncl doc (i + 1) e) →
      (expandBefore doc maxChars i total).1 =
        joinNL (sliceIncl doc (expandBefore doc maxChars i total).2 e) ∧
      (expandBefore doc maxChars i total).2 ≤ i + 1 ∧
      5 * (expandBefore doc maxChars i total).1.length ≤
        max (5 * total.length) (6 * maxChars + 5) := by
  intro i
  induction i with
  | zero =>
    intro total hie htot
    unfold expandBefore
    by_cases hlt : total.length < maxChars
    · rw [if_pos hlt]
      cases hget : doc[0]? with
      | none => exact ⟨htot, Nat.le_refl _, le_max_left _ _⟩
      | some c =>
        dsimp only
        by_cases hguard : 6 * maxChars < 5 * (total.length + c.length)
        · rw [if_pos hguard]
          exact ⟨htot, Nat.le_refl _, le_max_left _ _⟩
        · rw [if_neg hguard]
          have h0 : (0 : Nat) < doc.length := by omega
          have hc : doc[0] = c := by
            rw [List.getElem?_eq_getElem h0] at hget
            exact (Option.some_inj.mp hget)
          refine ⟨?_, Nat.zero_le _, ?_⟩
          · show c ++ nlc :: total = joinNL (sliceIncl doc 0 e)
            rw [sliceIncl_cons (by omega) h0, joinNL_cons (sliceIncl_ne_nil hie (by omega)),
              hc, htot]
          · show 5 * (c ++ nlc :: total).length ≤ max (5 * total.length) (6 * maxChars + 5)
            have hlen : (c ++ nlc :: total).length = c.length + 1 + total.length := by
              rw [List.length_append, List.length_cons]
              omega
            rw [hlen]
            have : 5 * (total.length + c.length) ≤ 6 * maxChars := by omega
            refine le_max_of_le_right (by omega)
    · rw [if_neg hlt]
      exact ⟨htot, Nat.le_refl _, le_max_left _ _⟩
  | succ j ih =>
    intro total hie htot
    unfold expandBefore
    by_cases hlt : total.length < maxChars
    · rw [if_pos hlt]
      cases hget : doc[j + 1]? with
      | none => exact ⟨htot, Nat.le_refl _, le_max_left _ _⟩
      | some c =>
        dsimp only
        by_cases hguard : 6 * maxChars < 5 * (total.length + c.length)
        · rw [if_pos hguard]
          exact ⟨htot, Nat.le_refl _, le_max_left _ _⟩
        · rw [if_neg hguard]
          have hj1 : j + 1 < doc.length := by omega
          have hc : doc[j + 1] = c := by
            rw [List.getElem?_eq_getElem hj1] at hget
            exact (Option.some_inj.mp hget)
          have htot2 : c ++ nlc :: total = joinNL (sliceIncl doc (j + 1) e) := by
            rw [sliceIncl_cons (by omega) hj1,
              joinNL_cons (sliceIncl_ne_nil hie (by omega)), hc, htot]
          obtain ⟨h1, h2, h3⟩ := ih (c ++ nlc :: total) (by omega) htot2
          refine ⟨h1, by omega, ?_⟩
          have hlen : (c ++ nlc :: total).length = c.length + 1 + total.length := by
            rw [List.length_append, List.length_cons]
            omega
          have hbound : 5 * (c ++ nlc :: total).length ≤ 6 * maxChars + 5 := by
            rw [hlen]; omega
          calc 5 * (expandBefore doc maxChars j (c ++ nlc :: total)).1.length
              ≤ max (5 * (c ++ nlc :: total).length) (6 * maxChars + 5) := h3
            _ ≤ 6 * maxChars + 5 := by omega
            _ ≤ max (5 * total.length) (6 * maxChars + 5) := le_max_right _ _
    · rw [if_neg hlt]
      exact ⟨htot, Nat.le_refl _, le_max_left _ _⟩

lemma expandAfter_spec (doc : List Str) (maxChars : Nat) (s : Nat) :
    ∀ (fuel i : Nat) (total : Str), 1 ≤ i → s ≤ i - 1 → i - 1 < doc.length →
      total = joinNL (sliceIncl doc s (i - 1)) →
      (expandAfter doc maxChars fuel i total).1 =
        joinNL (sliceIncl doc s (expandAfter doc maxChars fuel i total).2) ∧
      i - 1 ≤ (expandAfter doc maxChars fuel i total).2 ∧
      (expandAfter doc maxChars fuel i total).2 < doc.length ∧
      5 * (expandAfter doc maxChars fuel i total).1.length ≤
        max (5 * total.length) (6 * maxChars + 5) := by
  intro fuel
  induction fuel with
  | zero =>
    intro i total hi hs hlen htot
    exact ⟨htot, Nat.le_refl _, hlen, le_max_left _ _⟩
  | succ f ih =>
    intro i total hi hs hlen htot
    unfold expandAfter
    by_cases hlt : total.length < maxChars
    · rw [if_pos hlt]
      cases hget : doc[i]? with
      | none => exact ⟨htot, Nat.le_refl _, hlen, le_max_left _ _⟩
      | some c =>
        dsimp only
        by_cases hguard : 6 * maxChars < 5 * (total.length + c.length)
        · rw [if_pos hguard]
          exact ⟨htot, Nat.le_refl _, hlen, le_max_left _ _⟩
        · rw [if_neg hguard]
          have hilen : i < doc.length := by
            by_contra hge
            have hnone : doc[i]? = none := List.getElem?_eq_none (by omega)
            rw [hnone] at hget
            cases hget
          have hc : doc[i] = c := by
            rw [List.getElem?_eq_getElem hilen] at hget
            exact (Option.some_inj.mp hget)
          have htot2 : total ++ nlc :: c = joinNL (sliceIncl doc s ((i + 1) - 1)) := by
            have hsnoc : sliceIncl doc s i = sliceIncl doc s (i - 1) ++ [doc[i]] :=
              sliceIncl_snoc (by omega) (by omega) hilen
            rw [show (i + 1) - 1 = i by omega, hsnoc, hc,
              joinNL_append_singleton (sliceIncl_ne_nil hs (by omega)), htot]
          obtain ⟨h1, h2, h3, h4⟩ := ih (i + 1) (total ++ nlc :: c)
            (by omega) (by omega) (by rw [show (i+1)-1 = i by omega]; exact hilen) htot2
          refine ⟨h1, by omega, h3, ?_⟩
          have hlentot : (total ++ nlc :: c).length = total.length + 1 + c.length := by
            rw [List.length_append, List.length_cons]
            omega
          have hbound : 5 * (total ++ nlc :: c).length ≤ 6 * maxChars + 5 := by
            rw [hlentot]; omega
          calc 5 * (expandAfter doc maxChars f (i + 1) (total ++ nlc :: c)).1.length
              ≤ max (5 * (total ++ nlc :: c).length) (6 * maxChars + 5) := h4
            _ ≤ 6 * maxChars + 5 := by omega
            _ ≤ max (5 * total.length) (6 * maxChars + 5) := le_max_right _ _
    · rw [if_neg hlt]
      exact ⟨htot, Nat.le_refl _, hlen, le_max_left _ _⟩

lemma beforePart_spec (doc : List Str) (maxChars chunkIndex : Nat)
    (target : Str) (dir : Direction) (ht : doc[chunkIndex]? = some target) :
    (beforePart doc maxChars chunkIndex target dir).1 =
      joinNL (sliceIncl doc (beforePart doc maxChars chunkIndex target dir).2 chunkIndex) ∧
    (beforePart doc maxChars chunkIndex target dir).2 ≤ chunkIndex ∧
    5 * (beforePart doc maxChars chunkIndex target dir).1.length ≤
      max (5 * target.length) (6 * maxChars + 5) := by
  have hself : joinNL (sliceIncl doc chunkIndex chunkIndex) = target := by
    rw [sliceIncl_self ht]
    rfl
  have hcI : chunkIndex < doc.length := by
    by_contra hge
    have hnone : doc[chunkIndex]? = none := List.getElem?_eq_none (by omega)
    rw [hnone] at ht
    cases ht
  unfold beforePart
  by_cases hdir : dir = Direction.before ∨ dir = Direction.both
  · rw [if_pos hdir]
    cases chunkIndex with
    | zero => exact ⟨hself.symm, Nat.le_refl _, le_max_left _ _⟩
    | succ j =>
      exact expandBefore_spec doc maxChars (j + 1) hcI j target (Nat.le_refl _) hself.symm
  · rw [if_neg hdir]
    exact ⟨hself.symm, Nat.le_refl _, le_max_left _ _⟩

lemma afterPart_spec (doc : List Str) (maxChars chunkIndex : Nat)
    (dir : Direction) (st1 : Str × Nat)
    (hcI : chunkIndex < doc.length)
    (h1 : st1.1 = joinNL (sliceIncl doc st1.2 chunkIndex))
    (h2 : st1.2 ≤ chunkIndex) :
    (afterPart doc maxChars chunkIndex dir st1).1 =
      joinNL (sliceIncl doc st1.2 (afterPart doc maxChars chunkIndex dir st1).2) ∧
    chunkIndex ≤ (afterPart doc maxChars chunkIndex dir st1).2 ∧
    (afterPart doc maxChars chunkIndex dir st1).2 < doc.length ∧
    5 * (afterPart doc maxChars chunkIndex dir st1).1.length ≤
      max (5 * st1.1.length) (6 * maxChars + 5) := by
  unfold afterPart
  by_cases hdir : dir = Direction.after ∨ dir = Direction.both
  · rw [if_pos hdir]
    have := expandAfter_spec doc maxChars st1.2 (doc.length + 1) (chunkIndex + 1) st1.1
      (by omega) (by omega) (by omega)
      (by rw [show chunkIndex + 1 - 1 = chunkIndex by omega]; exact h1)
    refine ⟨this.1, by omega, this.2.2.1, this.2.2.2⟩
  · rw [if_neg hdir]
    exact ⟨h1, Nat.le_refl _, hcI, le_max_left _ _⟩

/-- **C5 (counterexample).** The claim implies that the final window
never exceeds `max(target.length, maxChars * 1.2)` characters (only the
target can exceed the budget on its own; every further chunk may only be
added if it would not push the window beyond `maxChars * 1.2`).  With
chunks `["aaaaaaa", "bbbbb"]`, target index 1 and `maxChars = 10`, the
guard `total + chunk = 5 + 7 = 12 ≤ 12` admits the neighbour, but the
joining newline makes the returned window 13 characters long —
`5 * 13 = 65 > 60 = max(5 * 5, 6 * 10)`, i.e. the window did exceed
`maxChars * 1.2 = 12`. -/
theorem claim5_counterexample :
    (getExpandedContext
        [List.replicate 7 'a', List.replicate 5 'b'] 1 10 Direction.both).1.length = 13 ∧
    ¬ (5 * (getExpandedContext
        [List.replicate 7 'a', List.replicate 5 'b'] 1 10 Direction.both).1.length ≤
      max (5 * (List.replicate 5 'b').length) (6 * 10)) := by
  decide

/-- **C5 (amended).** For every `getExpandedContext` call whose target
chunk exists: chunks are added only while the window is below `maxChars`,
and a neighbouring chunk is only added when the window plus that chunk's
content (not counting the joining newline) stays within
`maxChars * 1.2` — hence the final window length is at most
`max(target.length, maxChars * 1.2 + 1)` (stated as
`5·len ≤ max (5·target.length) (6·maxChars + 5)`); the returned content
is exactly the chunks of the inclusive range `[startIndex, endIndex]`
joined with single newlines in document order, and that range contains
`chunkIndex` and stays inside the document. -/
theorem claim5_amended_getExpandedContext (doc : List Str)
    (chunkIndex maxChars : Nat) (dir : Direction) (target : Str)
    (ht : doc[chunkIndex]? = some target) :
    (getExpandedContext doc chunkIndex maxChars dir).1 =
      joinNL (sliceIncl doc (getExpandedContext doc chunkIndex maxChars dir).2.1
        (getExpandedContext doc chunkIndex maxChars dir).2.2) ∧
    (getExpandedContext doc chunkIndex maxChars dir).2.1 ≤ chunkIndex ∧
    chunkIndex ≤ (getExpandedContext doc chunkIndex maxChars dir).2.2 ∧
    (getExpandedContext doc chunkIndex maxChars dir).2.2 < doc.length ∧
    5 * (getExpandedContext doc chunkIndex maxChars dir).1.length ≤
      max (5 * target.length) (6 * maxChars + 5) := by
  have hcI : chunkIndex < doc.length := by
    by_contra hge
    have hnone : doc[chunkIndex]? = none := List.getElem?_eq_none (by omega)
    rw [hnone] at ht
    cases ht
  have hG : getExpandedContext doc chunkIndex maxChars dir =
      ((afterPart doc maxChars chunkIndex dir
          (beforePart doc maxChars chunkIndex target dir)).1,
        (beforePart doc maxChars chunkIndex target dir).2,
        (afterPart doc maxChars chunkIndex dir
          (beforePart doc maxChars chunkIndex target dir)).2) := by
    unfold getExpandedContext
    rw [ht]
  obtain ⟨hb1, hb2, hb3⟩ := beforePart_spec doc maxChars chunkIndex target dir ht
  obtain ⟨ha1, ha2, ha3, ha4⟩ := afterPart_spec doc maxChars chunkIndex dir
    (beforePart doc maxChars chunkIndex target dir) hcI hb1 hb2
  rw [hG]
  refine ⟨ha1, hb2, ha2, ha3, ?_⟩
  dsimp only
  calc 5 * (afterPart doc maxChars chunkIndex dir
        (beforePart doc maxChars chunkIndex target dir)).1.length
      ≤ max (5 * (beforePart doc maxChars chunkIndex target dir).1.length)
          (6 * maxChars + 5) := ha4
    _ ≤ max (5 * target.length) (6 * maxChars + 5) := by
        rw [Nat.max_le]
        exact ⟨hb3, le_max_right _ _⟩

/-- Witness for C5 (amended), at the Scenario-A-style input: three chunks
with target index 1 and a generous budget; the theorem yields the joined
content, the range facts and the length bound there. -/
theorem claim5_amended_getExpandedContext_witness :
    (getExpandedContext
        [String.data "First", String.data "Second", String.data "Third"]
        1 2000 Direction.both).1 =
      joinNL (sliceIncl [String.data "First", String.data "Second", String.data "Third"]
        (getExpandedContext
          [String.data "First", String.data "Second", String.data "Third"]
          1 2000 Direction.both).2.1
        (getExpandedContext
          [String.data "First", String.data "Second", String.data "Third"]
          1 2000 Direction.both).2.2) := by
  exact (claim5_amended_getExpandedContext
    [String.data "First", String.data "Second", String.data "Third"]
    1 2000 Direction.both (String.data "Second") rfl).1

/-! ## Chunking (`MarkdownExtractor.ts` `chunkText`, lines 237-327)

`chunkText` first extracts code blocks and inline code spans
(`/```[\s\S]*?```|`[^`]+`/g`) into placeholders, normalises whitespace,
then packs paragraphs (and, for oversized paragraphs, sentences) into
chunks, hard-splitting oversized sentences into fixed windows; finally it
restores the code blocks into every chunk and drops chunks of at most 20
characters.  (JS `String.replace` with a replacement string additionally
interprets `$`-sequences in the replacement; code contents without `$`
are restored verbatim, which is what is modelled here.) -/

/-- Provenance of a chunk: the single-chunk fast path, paragraph/sentence
packing (`chunks.push(currentChunk)` / `chunks.push(currentChunk.trim())`),
or the fixed-window hard-split fallback. -/
inductive Tag where
  | single
  | pack
  | hard
deriving DecidableEq, Repr

/-- The whitespace characters relevant to the modelled inputs of JS
`String.trim` (space, tab, newline, carriage return). -/
def isWsChar (c : Char) : Bool :=
  c == ' ' || c == '\t' || c == '\n' || c == '\r'

/-- JS `String.trim`. -/
def trimStr (l : Str) : Str :=
  ((l.dropWhile isWsChar).reverse.dropWhile isWsChar).reverse

/-- `.replace(/[ \t]+/g, " ")`: collapse each run of spaces/tabs to one
space; `prev` records whether the previous character belonged to a run. -/
def collapseSpacesAux : Bool → Str → Str
  | _, [] => []
  | prev, c :: cs =>
    if c == ' ' || c == '\t' then
      if prev then collapseSpacesAux true cs
      else ' ' :: collapseSpacesAux true cs
    else c :: collapseSpacesAux false cs

/-- `.replace(/\n{3,}/g, "\n\n")`: keep at most two newlines of each run;
`run` counts the newlines of the current run already seen. -/
def collapseNLAux : Nat → Str → Str
  | _, [] => []
  | run, c :: cs =>
    if c == '\n' then
      if run < 2 then '\n' :: collapseNLAux (run + 1) cs
      else collapseNLAux (run + 1) cs
    else c :: collapseNLAux 0 cs

/-- `.split(/\n\n+/)`: split on each run of two or more newlines. -/
def splitGo : Nat → Str → Str → List Str
  | 0, cs, cur => [cur.reverse ++ cs]
  | _ + 1, [], cur => [cur.reverse]
  | f + 1, c1 :: cs, cur =>
    if c1 == '\n' && (cs.head?.map (fun c2 => c2 == '\n')).getD false then
      cur.reverse :: splitGo f (cs.dropWhile (fun c => c == '\n')) []
    else splitGo f cs (c1 :: cur)

/-- `cleaned.split(/\n\n+/)`. -/
def splitParas (cs : Str) : List Str := splitGo (cs.length + 1) cs []

/-- A sentence terminator (`[.!?]`). -/
def isTermChar (c : Char) : Bool := c == '.' || c == '!' || c == '?'

/-- `para.match(/[^.!?]+[.!?]+/g)`: each match is a maximal run of
non-terminators followed by a maximal run of terminators; leading
terminators are skipped and a trailing unterminated run yields no match. -/
def sentGo : Nat → Str → List Str
  | 0, _ => []
  | f + 1, cs =>
    let cs1 := cs.dropWhile isTermChar
    let a := cs1.takeWhile (fun c => !isTermChar c)
    let r1 := cs1.dropWhile (fun c => !isTermChar c)
    let b := r1.takeWhile isTermChar
    let r2 := r1.dropWhile isTermChar
    if a.isEmpty || b.isEmpty then [] else (a ++ b) :: sentGo f r2

/-- The list of sentence matches of a paragraph. -/
def sentencesOf (p : Str) : List Str := sentGo (p.length + 1) p

/-- The hard-split loop
(`for (i = 0; i < sentence.length; i += chunkSize - chunkOverlap)
chunks.push(sentence.slice(i, i + chunkSize).trim())`).  `fuel` bounds the
iteration count; with `step ≥ 1` a fuel of `length + 1` is exact (with
`step = 0` the JS loop would not terminate). -/
def hardGo (S step : Nat) : Nat → Nat → Str → List Str
  | 0, _, _ => []
  | f + 1, i, s =>
    if i < s.length then
      trimStr ((s.drop i).take S) :: hardGo S step f (i + step) s
    else []

/-- Hard-split an oversized sentence into fixed windows of `S` characters
advancing by `S - O`. -/
def hardSplit (S O : Nat) (s : Str) : List Str :=
  hardGo S (S - O) (s.length + 1) 0 s

/-- `` `__CODE_BLOCK_${i}__` ``. -/
def placeholder (k : Nat) : Str :=
  ("__CODE_BLOCK_" ++ Nat.repr k ++ "__").data

/-- Find the lazily-nearest closing ` ``` `: returns the characters before
it and the rest after it. -/
def findClose : Nat → Str → Option (Str × Str)
  | 0, _ => none
  | _ + 1, [] => none
  | f + 1, c :: cs =>
    if [btick, btick, btick].isPrefixOf (c :: cs) then some ([], cs.drop 2)
    else (findClose f cs).map (fun pr => (c :: pr.1, pr.2))

/-- Match the first regex alternative ``/```[\s\S]*?```/`` at the current
position. -/
def tryTriple (cs : Str) : Option (Str × Str) :=
  if [btick, btick, btick].isPrefixOf cs then
    match findClose ((cs.drop 3).length + 1) (cs.drop 3) with
    | some (body, rest) =>
      some ([btick, btick, btick] ++ body ++ [btick, btick, btick], rest)
    | none => none
  else none

/-- Match the second regex alternative ``/`[^`]+`/`` at the current
position. -/
def tryInline (cs : Str) : Option (Str × Str) :=
  match cs with
  | [] => none
  | c :: rest =>
    if c == btick then
      let body := rest.takeWhile (fun x => !(x == btick))
      let r1 := rest.dropWhile (fun x => !(x == btick))
      if body.isEmpty then none
      else
        match r1 with
        | c2 :: r2 => if c2 == btick then some (btick :: (body ++ [btick]), r2) else none
        | [] => none
    else none

/-- The global code-extraction replace: scan left to right, substituting
each match by its placeholder and recording `(placeholder, original)`
pairs in match order.  Both regex alternatives start with a backtick, so
other characters are copied unchanged. -/
def extractGo : Nat → Str → List (Str × Str) → Str × List (Str × Str)
  | 0, cs, blocks => (cs, blocks)
  | _ + 1, [], blocks => ([], blocks)
  | f + 1, c :: cs, blocks =>
    if c == btick then
      match tryTriple (c :: cs) with
      | some (m, rest) =>
        let ph := placeholder blocks.length
        let r := extractGo f rest (blocks ++ [(ph, m)])
        (ph ++ r.1, r.2)
      | none =>
        match tryInline (c :: cs) with
        | some (m, rest) =>
          let ph := placeholder blocks.length
          let r := extractGo f rest (blocks ++ [(ph, m)])
          (ph ++ r.1, r.2)
        | none =>
          let r := extractGo f cs blocks
          (c :: r.1, r.2)
    else
      let r := extractGo f cs blocks
      (c :: r.1, r.2)

/-- The code-block extraction pass over the whole text. -/
def extractCode (text : Str) : Str × List (Str × Str) :=
  extractGo (text.length + 1) text []

/-- JS `String.replace(pat, rep)` with a plain-string pattern: replace
the first occurrence only. -/
def replaceFirst : Str → Str → Str → Str
  | [], _, _ => []
  | h :: t, pat, rep =>
    if pat.isPrefixOf (h :: t) then rep ++ List.drop pat.length (h :: t)
    else h :: replaceFirst t pat rep

/-- Restore every recorded code block into a chunk
(`for (const {placeholder, content} of codeBlocks) restored =
restored.replace(placeholder, content)`). -/
def restoreAll (blocks : List (Str × Str)) (c : Str) : Str :=
  blocks.foldl (fun s pr => replaceFirst s pr.1 pr.2) c

/-- `currentChunk += (currentChunk ? "\n\n" : "") + para`. -/
def appendPara (cur para : Str) : Str :=
  if cur.isEmpty then para else cur ++ '\n' :: '\n' :: para

/-- The sentence-packing inner loop of `chunkText` for one oversized
paragraph: greedily pack sentences up to `S` characters, hard-splitting a
sentence that alone exceeds `S`.  Returns the still-open chunk and the
chunks emitted so far (tagged with their provenance). -/
def packSents (S O : Nat) : List Str → Str → List (Tag × Str) → Str × List (Tag × Str)
  | [], cur, acc => (cur, acc)
  | s :: rest, cur, acc =>
    if cur.length + s.length ≤ S then packSents S O rest (cur ++ s) acc
    else
      let acc1 := if cur.isEmpty then acc else acc ++ [(Tag.pack, trimStr cur)]
      if S < s.length then
        packSents S O rest []
          (acc1 ++ (hardSplit S O s).map (fun c => (Tag.hard, c)))
      else packSents S O rest s acc1

/-- The paragraph-packing outer loop of `chunkText`: greedily pack
paragraphs up to `S` characters (joined by a blank line), delegating an
oversized paragraph to sentence packing; the final open chunk is emitted
at the end. -/
def packParas (S O : Nat) : List Str → Str → List (Tag × Str) → List (Tag × Str)
  | [], cur, acc => if cur.isEmpty then acc else acc ++ [(Tag.pack, cur)]
  | p :: rest, cur, acc =>
    if cur.length + p.length + 2 ≤ S then packParas S O rest (appendPara cur p) acc
    else
      let acc1 := if cur.isEmpty then acc else acc ++ [(Tag.pack, cur)]
      if S < p.length then
        let m := sentencesOf p
        let sents := if m.isEmpty then [p] else m
        let r := packSents S O sents [] acc1
        packParas S O rest r.1 r.2
      else packParas S O rest p acc1

/-- `chunkText`, with each produced chunk tagged by its provenance:
extract code, normalise whitespace; if the cleaned text fits in one chunk
restore and return it (or nothing when empty); otherwise pack paragraphs
and sentences, restore the code blocks into every chunk, and drop chunks
of at most 20 characters. -/
def chunkTextTagged (text : Str) (S O : Nat) : List (Tag × Str) :=
  let ext := extractCode text
  let cleaned := trimStr (collapseNLAux 0 (collapseSpacesAux false ext.1))
  if cleaned.length ≤ S then
    let restored := restoreAll ext.2 cleaned
    if restored.isEmpty then [] else [(Tag.single, restored)]
  else
    let tagged := packParas S O (splitParas cleaned) [] []
    (tagged.map (fun p => (p.1, restoreAll ext.2 p.2))).filter
      (fun p => 20 < p.2.length)

/-- `chunkText` as exported: the chunk contents in order. -/
def chunkText (text : Str) (S O : Nat) : List Str :=
  (chunkTextTagged text S O).map (fun p => p.2)

lemma trimStr_length_le (l : Str) : (trimStr l).length ≤ l.length := by
  unfold trimStr
  calc ((l.dropWhile isWsChar).reverse.dropWhile isWsChar).reverse.length
      = ((l.dropWhile isWsChar).reverse.dropWhile isWsChar).length :=
        List.length_reverse ..
    _ ≤ (l.dropWhile isWsChar).reverse.length :=
        (List.dropWhile_sublist isWsChar).length_le
    _ = (l.dropWhile isWsChar).length := List.length_reverse ..
    _ ≤ l.length := (List.dropWhile_sublist isWsChar).length_le

lemma hardGo_mem {S step : Nat} :
    ∀ (f i : Nat) (s c : Str), c ∈ hardGo S step f i s → c.length ≤ S := by
  intro f
  induction f with
  | zero => intro i s c hc; cases hc
  | succ f ih =>
    intro i s c hc
    unfold hardGo at hc
    by_cases hi : i < s.length
    · rw [if_pos hi] at hc
      rcases List.mem_cons.mp hc with hhd | htl
      · subst hhd
        calc (trimStr ((s.drop i).take S)).length
            ≤ ((s.drop i).take S).length := trimStr_length_le _
          _ ≤ S := List.length_take_le ..
      · exact ih _ _ _ htl
    · rw [if_neg hi] at hc
      cases hc

lemma appendPara_length_le {S : Nat} {cur p : Str}
    (h : cur.length + p.length + 2 ≤ S) : (appendPara cur p).length ≤ S := by
  unfold appendPara
  by_cases hcur : cur.isEmpty
  · rw [if_pos hcur]
    omega
  · rw [if_neg hcur]
    rw [List.length_append, List.length_cons, List.length_cons]
    omega

lemma packSents_spec (S O : Nat) :
    ∀ (sents : List Str) (cur : Str) (acc : List (Tag × Str)),
      cur.length ≤ S → (∀ p ∈ acc, p.2.length ≤ S) →
      (packSents S O sents cur acc).1.length ≤ S ∧
        ∀ p ∈ (packSents S O sents cur acc).2, p.2.length ≤ S := by
  intro sents
  induction sents with
  | nil => intro cur acc hcur hacc; exact ⟨hcur, hacc⟩
  | cons s rest ih =>
    intro cur acc hcur hacc
    unfold packSents
    by_cases hfit : cur.length + s.length ≤ S
    · rw [if_pos hfit]
      exact ih (cur ++ s) acc (by rw [List.length_append]; omega) hacc
    · rw [if_neg hfit]
      have hacc1 : ∀ p ∈ (if cur.isEmpty then acc
          else acc ++ [(Tag.pack, trimStr cur)]), p.2.length ≤ S := by
        by_cases hcur0 : cur.isEmpty
        · rw [if_pos hcur0]; exact hacc
        · rw [if_neg hcur0]
          intro p hp
          rcases List.mem_append.mp hp with hpa | hps
          · exact hacc p hpa
          · rw [List.mem_singleton] at hps
            subst hps
            exact le_trans (trimStr_length_le cur) hcur
      by_cases hbig : S < s.length
      · rw [if_pos hbig]
        refine ih [] _ (Nat.zero_le S) ?_
        intro p hp
        rcases List.mem_append.mp hp with hpa | hph
        · exact hacc1 p hpa
        · obtain ⟨c, hc, hpc⟩ := List.mem_map.mp hph
          rw [← hpc]
          exact hardGo_mem _ _ _ _ hc
      · rw [if_neg hbig]
        exact ih s _ (by omega) hacc1

lemma packParas_spec (S O : Nat) :
    ∀ (paras : List Str) (cur : Str) (acc : List (Tag × Str)),
      cur.length ≤ S → (∀ p ∈ acc, p.2.length ≤ S) →
      ∀ p ∈ packParas S O paras cur acc, p.2.length ≤ S := by
  intro paras
  induction paras with
  | nil =>
    intro cur acc hcur hacc p hp
    unfold packParas at hp
    by_cases hcur0 : cur.isEmpty
    · rw [if_pos hcur0] at hp; exact hacc p hp
    · rw [if_neg hcur0] at hp
      rcases List.mem_append.mp hp with hpa | hps
      · exact hacc p hpa
      · rw [List.mem_singleton] at hps
        subst hps
        exact hcur
  | cons q rest ih =>
    intro cur acc hcur hacc p hp
    unfold packParas at hp
    by_cases hfit : cur.length + q.length + 2 ≤ S
    · rw [if_pos hfit] at hp
      exact ih (appendPara cur q) acc (appendPara_length_le hfit) hacc p hp
    · rw [if_neg hfit] at hp
      have hacc1 : ∀ p0 ∈ (if cur.isEmpty then acc
          else acc ++ [(Tag.pack, cur)]), p0.2.length ≤ S := by
        by_cases hcur0 : cur.isEmpty
        · rw [if_pos hcur0]; exact hacc
        · rw [if_neg hcur0]
          intro p0 hp0
          rcases List.mem_append.mp hp0 with hpa | hps
          · exact hacc p0 hpa
          · rw [List.mem_singleton] at hps
            subst hps
            exact hcur
      by_cases hbig : S < q.length
      · rw [if_pos hbig] at hp
        obtain ⟨hc1, hc2⟩ := packSents_spec S O
          (if (sentencesOf q).isEmpty then [q] else sentencesOf q) [] _
          (Nat.zero_le S) hacc1
        exact ih _ _ hc1 hc2 p hp
      · rw [if_neg hbig] at hp
        exact ih q _ (by omega) hacc1 p hp

lemma extractGo_no_btick :
    ∀ (f : Nat) (cs : Str) (blocks : List (Str × Str)),
      cs.length ≤ f → (∀ c ∈ cs, c ≠ btick) →
      extractGo f cs blocks = (cs, blocks) := by
  intro f
  induction f with
  | zero =>
    intro cs blocks hlen _
    have : cs = [] := List.eq_nil_of_length_eq_zero (by omega)
    subst this
    rfl
  | succ f ih =>
    intro cs blocks hlen hb
    cases cs with
    | nil => rfl
    | cons c cs0 =>
      unfold extractGo
      have hcb : (c == btick) = false :=
        beq_eq_false_iff_ne.mpr (hb c (List.mem_cons_self ..))
      rw [hcb]
      simp only [Bool.false_eq_true, if_false]
      rw [ih cs0 blocks (by simp only [List.length_cons] at hlen; omega)
        (fun x hx => hb x (List.mem_cons_of_mem _ hx))]

lemma restoreAll_nil (c : Str) : restoreAll [] c = c := rfl

/-- **C4 (counterexample).** The claim bounds every paragraph/sentence
packed chunk by `S`.  But chunks are produced on text whose code spans
were replaced by short placeholders, and the code is restored into the
chunks afterwards: with `S = 100`, `O = 10`, and a text consisting of a
95-character paragraph followed by a paragraph containing a 200-character
inline code span, paragraph packing emits a chunk that is 206 characters
long after restoration. -/
theorem claim4_counterexample :
    ∃ p ∈ chunkTextTagged
      (List.replicate 95 'a' ++ ['\n', '\n'] ++
        ('x' :: ' ' :: btick :: (List.replicate 200 'b' ++ [btick, ' ', 'y'])))
      100 10,
      p.1 = Tag.pack ∧ 100 < p.2.length := by
  decide

/-- **C4 (amended).** For text containing no backtick (so that no code
span is extracted and restored), every chunk produced by paragraph or
sentence packing has length at most `S`, and every chunk produced by the
fixed-window hard-split fallback has length at most `S * 1.2` (indeed at
most `S`); with code spans present the bounds hold for the chunks before
code-block restoration, but restoration can exceed them. -/
theorem claim4_amended_chunk_bounds (text : Str) (S O : Nat)
    (hO : 0 < O) (hOS : O < S) (hb : ∀ c ∈ text, c ≠ btick) :
    ∀ p ∈ chunkTextTagged text S O,
      (p.1 = Tag.pack → p.2.length ≤ S) ∧
      (p.1 = Tag.hard → 5 * p.2.length ≤ 6 * S) := by
  intro p hp
  unfold chunkTextTagged at hp
  rw [show extractCode text = (text, []) from
    extractGo_no_btick (text.length + 1) text [] (by omega) hb] at hp
  dsimp only at hp
  by_cases hsmall :
      (trimStr (collapseNLAux 0 (collapseSpacesAux false text))).length ≤ S
  · rw [if_pos hsmall] at hp
    by_cases hemp : (restoreAll []
        (trimStr (collapseNLAux 0 (collapseSpacesAux false text)))).isEmpty
    · rw [if_pos hemp] at hp
      cases hp
    · rw [if_neg hemp] at hp
      rw [List.mem_singleton] at hp
      subst hp
      exact ⟨fun h => (nomatch h), fun h => (nomatch h)⟩
  · rw [if_neg hsmall] at hp
    have hp1 := (List.mem_filter.mp hp).1
    obtain ⟨q, hq, hpq⟩ := List.mem_map.mp hp1
    have hqS : q.2.length ≤ S :=
      packParas_spec S O
        (splitParas (trimStr (collapseNLAux 0 (collapseSpacesAux false text))))
        [] [] (Nat.zero_le S) (fun p0 hp0 => absurd hp0 (List.not_mem_nil p0)) q hq
    have hpq2 : p = q := by
      rw [← hpq, restoreAll_nil]
    subst hpq2
    exact ⟨fun _ => hqS, fun _ => by omega⟩

/-- Witness for C4 (amended): chunking a backtick-free text of four
sentences with `S = 40`, `O = 10` produces the first sentence as a
pack-tagged chunk, and the theorem bounds its length by 40. -/
theorem claim4_amended_chunk_bounds_witness :
    (Tag.pack, "This is the first sentence of the text.".data) ∈
      chunkTextTagged
        ("This is the first sentence of the text. Here comes another one! A third sentence follows now? The last sentence closes the paragraph.".data)
        40 10 ∧
    ("This is the first sentence of the text.".data).length ≤ 40 := by
  have hmem : (Tag.pack, "This is the first sentence of the text.".data) ∈
      chunkTextTagged
        ("This is the first sentence of the text. Here comes another one! A third sentence follows now? The last sentence closes the paragraph.".data)
        40 10 := by decide
  exact ⟨hmem,
    (claim4_amended_chunk_bounds
      ("This is the first sentence of the text. Here comes another one! A third sentence follows now? The last sentence closes the paragraph.".data)
      40 10 (by omega) (by omega) (by decide) _ hmem).1 rfl⟩

end PdfLib
